import Mathlib

/-!
Shallow embedding of the bft-maker manifest core: the schema model
(types.ts), the graph utility (graph.ts), the row-count estimator
(estimate.ts, the revision that reports placeholder_row_count and reads
the declared grain from table.entities) and the validator (validate.ts).

Modelling conventions:
* JS `Map` built from a list of pairs keeps the last binding for a key;
  `lookupLast` mirrors that.  JS `Set<string>` keeps insertion order and
  ignores re-inserts; it is modelled as a `List String` updated with
  `setAdd`.
* JS numbers holding declared cardinalities are modelled as `Nat`; the
  fan-out step Math.round(total * links / rows) is carried out exactly on
  nonnegative rationals via `jsRoundDiv` (floor of x + 1/2 expressed with
  Nat division; the float/rational gap is the accepted approximation
  noted in the spec's numeric-semantics paragraph).
* The two breadth-first traversals are written with an explicit fuel
  argument so that they compute by kernel reduction; each caller passes
  fuel that dominates the traversal's step count (every step pops one
  queue element, and the potential |queue| + Σ over unvisited keys of
  (degree + 1) strictly decreases per step, so the initial potential
  bounds the number of steps).
* The human-readable `breakdown` trail is not modelled: it is write-only
  in the source and no numeric output depends on it.
-/

namespace BFT

/-- Metric definition: name, value type and additivity nature (types.ts). -/
structure MetricDef where
  name : String
  vtype : String
  nature : String
deriving Repr, DecidableEq

/-- Entity declaration (types.ts). -/
structure Entity where
  name : String
  role : String
  detail : Bool
  estimated_rows : Nat
  metrics : List MetricDef
deriving Repr, DecidableEq

/-- Undirected relationship between two entities (types.ts). -/
structure Relationship where
  name : String
  between : String × String
  rtype : String
  estimated_links : Nat
  weight_column : Option String := none
deriving Repr, DecidableEq

/-- One hop of a metric propagation path (types.ts). -/
structure PropagationEdge where
  relationship : String
  target_entity : String
  strategy : String
  weight : Option String := none
deriving Repr, DecidableEq

/-- A metric name plus its ordered outward path (types.ts). -/
structure MetricPropagation where
  metric : String
  path : List PropagationEdge
deriving Repr, DecidableEq

/-- A report-table declaration: declared grain entities plus included
metrics (types.ts). -/
structure BftTable where
  name : String
  entities : List String
  metrics : List String
deriving Repr, DecidableEq

/-- The aggregate root (types.ts).  The optional correction-label
configuration is omitted: no modelled function reads it. -/
structure Manifest where
  entities : List Entity
  relationships : List Relationship
  propagations : List MetricPropagation
  bft_tables : List BftTable
deriving Repr, DecidableEq

/-- Lookup in a JS `Map` built from a pair list: the last binding wins. -/
def lookupLast {α : Type} (pairs : List (String × α)) (k : String) : Option α :=
  pairs.foldl (fun acc p => if p.1 = k then some p.2 else acc) none

/-- Entity lookup, modelling `new Map(entities.map(e => [e.name, e]))`. -/
def entityGet (es : List Entity) (n : String) : Option Entity :=
  lookupLast (es.map fun e => (e.name, e)) n

/-- Metric-to-owner lookup, modelling `buildMetricOwnerMap` (helpers.ts). -/
def metricOwnerGet (es : List Entity) (m : String) : Option Entity :=
  lookupLast (es.flatMap fun e => e.metrics.map fun md => (md.name, e)) m

/-- First matching metric definition, modelling `findMetricDef`
(helpers.ts): the doubly nested for loop returns on the first hit. -/
def findMetricDef (es : List Entity) (m : String) : Option MetricDef :=
  (es.flatMap (fun e => e.metrics)).find? (fun md => md.name = m)

/-- Propagation lookup, modelling
`new Map(propagations.map(p => [p.metric, p]))`. -/
def propGet (ps : List MetricPropagation) (m : String) : Option MetricPropagation :=
  lookupLast (ps.map fun p => (p.metric, p)) m

/-- Relationship lookup, modelling
`new Map(relationships.map(r => [r.name, r]))`. -/
def relGet (rels : List Relationship) (n : String) : Option Relationship :=
  lookupLast (rels.map fun r => (r.name, r)) n

/-- JS `Set.add`: append unless already present (insertion order kept). -/
def setAdd (l : List String) (s : String) : List String :=
  if s ∈ l then l else l ++ [s]

/-! ## Graph utility (graph.ts `findConnectedComponents`) -/

/-- Adjacency map for the plain component search: key to neighbour set. -/
abbrev Adj := List (String × List String)

/-- Modelling the init loop `for (name of entityNames) adj.set(name, new
Set())`: re-setting an existing key leaves an empty set again, so the key
list is the input deduplicated, in first-occurrence order. -/
def adjInit (names : List String) : Adj :=
  names.foldl (fun acc n => if acc.any (fun p => p.1 = n) then acc else acc ++ [(n, [])]) []

/-- Modelling `adj.get(a)?.add(b)`: a no-op when `a` is not a key. -/
def adjAddNbr (adj : Adj) (a b : String) : Adj :=
  adj.map (fun p => if p.1 = a then (p.1, setAdd p.2 b) else p)

/-- The adjacency relation the source builds before traversal. -/
def buildAdj (names : List String) (rels : List Relationship) : Adj :=
  rels.foldl
    (fun m r => adjAddNbr (adjAddNbr m r.between.1 r.between.2) r.between.2 r.between.1)
    (adjInit names)

/-- Modelling `adj.get(current) ?? []`. -/
def adjGet (adj : Adj) (n : String) : List String :=
  match adj.find? (fun p => p.1 = n) with
  | some p => p.2
  | none => []

/-- The inner breadth-first loop of `findConnectedComponents`:
pop the queue, skip if visited, otherwise visit and push the unvisited
neighbours.  Returns the grown visited list and component. -/
def bfsAux (adj : Adj) : Nat → List String → List String → List String →
    List String × List String
  | 0, _, vis, comp => (vis, comp)
  | _ + 1, [], vis, comp => (vis, comp)
  | fuel + 1, cur :: rest, vis, comp =>
    if cur ∈ vis then bfsAux adj fuel rest vis comp
    else
      let vis2 := vis ++ [cur]
      let pushes := (adjGet adj cur).filter (fun nb => decide (nb ∉ vis2))
      bfsAux adj fuel (rest ++ pushes) vis2 (comp ++ [cur])

/-- Fuel dominating the step count of `bfsAux` from a one-element queue. -/
def bfsFuel (adj : Adj) : Nat :=
  1 + (adj.map (fun p => p.2.length + 1)).sum

/-- One step of the outer loop of `findConnectedComponents`: skip an
already-visited name, otherwise run one traversal from it and emit the
resulting component.  The state is (visited, components). -/
def fccStep (adj : Adj) (fuel : Nat) (st : List String × List (List String))
    (n : String) : List String × List (List String) :=
  if n ∈ st.1 then st
  else
    let r := bfsAux adj fuel [n] st.1 []
    (r.1, st.2 ++ [r.2])

/-- graph.ts `findConnectedComponents`: one breadth-first traversal per
unvisited input name, emitting one component per traversal. -/
def findConnectedComponents (entityNames : List String) (rels : List Relationship) :
    List (List String) :=
  let adj := buildAdj entityNames rels
  (entityNames.foldl (fccStep adj (bfsFuel adj)) ([], [])).2

/-! ## Estimator (estimate.ts) -/

/-- Numeric result of an estimation (estimate.ts `RowEstimate`, minus the
write-only breakdown trail). -/
structure RowEstimate where
  rows : Nat
  placeholder_row_count : Nat
  total : Nat
deriving Repr, DecidableEq

/-- JS `Math.round (a / b)` for nonnegative integers, under the exact
rational reading of the division: Math.round x = floor (x + 1/2)
(round half up), and for a b : Nat, floor (a / b + 1/2) =
floor ((2a + b) / (2b)) = (2a + b) / (2b) in Nat division.  When b = 0
both sides of the embedding agree on 0 (JS would produce Infinity; the
spec's numeric-semantics paragraph accepts the rational idealisation). -/
def jsRoundDiv (a b : Nat) : Nat := (2 * a + b) / (2 * b)

/-- The estimator's relationship filter: many-to-many edges whose both
endpoints lie in the grain set. -/
def mmFilter (rels : List Relationship) (grain : List String) : List Relationship :=
  rels.filter fun r =>
    decide (r.rtype = "many-to-many" ∧ r.between.1 ∈ grain ∧ r.between.2 ∈ grain)

/-- Adjacency map with relationship info for the spanning-tree traversal. -/
abbrev AdjP := List (String × List (String × Relationship))

/-- Init loop of the spanning-tree adjacency (`adj.set(name, [])`). -/
def adjInitP (names : List String) : AdjP :=
  names.foldl (fun acc n => if acc.any (fun p => p.1 = n) then acc else acc ++ [(n, [])]) []

/-- Modelling `adj.get(a)!.push(pr)`.  The non-null assertion is the one
place the estimator could throw; the guarded construction below only calls
it on keys of the map (theorem for claim C8 makes that precise via
`buildAdjPE`), and on a present key the update below is exact. -/
def adjPush (adj : AdjP) (a : String) (pr : String × Relationship) : AdjP :=
  adj.map (fun p => if p.1 = a then (p.1, p.2 ++ [pr]) else p)

/-- The adjacency-with-relationship structure of `estimateComponentRows`:
only relationships with both endpoints inside the component are recorded. -/
def buildAdjP (component : List String) (mmRels : List Relationship) : AdjP :=
  mmRels.foldl
    (fun m r =>
      if decide (r.between.1 ∈ component ∧ r.between.2 ∈ component) then
        adjPush (adjPush m r.between.1 (r.between.2, r)) r.between.2 (r.between.1, r)
      else m)
    (adjInitP component)

/-- Modelling `adj.get(current) ?? []` for the rich adjacency. -/
def adjGetP (adj : AdjP) (n : String) : List (String × Relationship) :=
  match adj.find? (fun p => p.1 = n) with
  | some p => p.2
  | none => []

/-- Handling of one neighbour entry during a spanning-tree visit: an
already-visited neighbour is skipped, a new one is marked visited and
enqueued and its relationship recorded as a tree edge.
State: (visited, pushes, recorded edges). -/
def spanNbrStep (s : List String × List String × List Relationship)
    (pr : String × Relationship) : List String × List String × List Relationship :=
  if pr.1 ∈ s.1 then s
  else (s.1 ++ [pr.1], s.2.1 ++ [pr.1], s.2.2 ++ [pr.2])

/-- One visiting step of the spanning-tree search: walk the neighbour list
of the popped node. -/
def spanStep (nbrs : List (String × Relationship))
    (vis : List String) (acc : List Relationship) :
    List String × List String × List Relationship :=
  nbrs.foldl spanNbrStep (vis, [], acc)

/-- The breadth-first spanning-tree loop of `estimateComponentRows`,
collecting tree edges in discovery order. -/
def spanAux (adj : AdjP) : Nat → List String → List String → List Relationship →
    List Relationship
  | 0, _, _, acc => acc
  | _ + 1, [], _, acc => acc
  | fuel + 1, cur :: rest, vis, acc =>
    let s := spanStep (adjGetP adj cur) vis acc
    spanAux adj fuel (rest ++ s.2.1) s.1 s.2.2

/-- The spanning-tree edges (`spanRels`) of a component.  Nodes are marked
visited when enqueued, so each distinct name is popped at most once and
`component.length + 1` fuel dominates the pop count. -/
def spanEdges (component : List String) (mmRels : List Relationship) : List Relationship :=
  match component with
  | [] => []
  | c0 :: _ =>
    spanAux (buildAdjP component mmRels) (component.length + 1) [c0] [c0] []

/-- All endpoint names of a relationship list (the `priorEntities` set of
`findSharedEntity`; only membership is ever queried). -/
def relEndpoints : List Relationship → List String
  | [] => []
  | r :: t => r.between.1 :: r.between.2 :: relEndpoints t

/-- estimate.ts `findSharedEntity`: the first endpoint of `rel` that
appears among the prior tree edges' endpoints, looked up in the entity
map (the lookup result is returned even when it is `none`). -/
def findSharedEntity (es : List Entity) (rel : Relationship)
    (priorRels : List Relationship) : Option Entity :=
  if rel.between.1 ∈ relEndpoints priorRels then entityGet es rel.between.1
  else if rel.between.2 ∈ relEndpoints priorRels then entityGet es rel.between.2
  else none

/-- One fan-out multiplication: when the shared entity resolves, multiply
by links / shared rows and round; otherwise leave the total unchanged.
The state carries the running total and the prior tree edges. -/
def fanOutStep (es : List Entity) (s : Nat × List Relationship) (rel : Relationship) :
    Nat × List Relationship :=
  match findSharedEntity es rel s.2 with
  | some e => (jsRoundDiv (s.1 * rel.estimated_links) e.estimated_rows, s.2 ++ [rel])
  | none => (s.1, s.2 ++ [rel])

/-- estimate.ts `estimateComponentRows`: spanning-tree edges, then the
first edge's links as base and one fan-out multiplication per further
edge; empty-tree fallback is the first entity's rows (0 when absent). -/
def estimateComponentRows (component : List String) (mmRels : List Relationship)
    (es : List Entity) : Nat :=
  match spanEdges component mmRels with
  | [] =>
    match component with
    | [] => 0
    | c0 :: _ => ((entityGet es c0).map (fun e => e.estimated_rows)).getD 0
  | r0 :: rest =>
    (rest.foldl (fanOutStep es) (r0.estimated_links, [r0])).1

/-- Contribution of one connected component inside `estimateRows`:
a singleton contributes its entity's declared rows (nothing when the
entity cannot be resolved), a larger component its chain estimate. -/
def componentContribution (es : List Entity) (mmRels : List Relationship)
    (component : List String) : Nat :=
  match component with
  | [x] => ((entityGet es x).map (fun e => e.estimated_rows)).getD 0
  | _ => estimateComponentRows component mmRels es

/-- estimate.ts `estimateRows`: sum the contributions of the connected
components of the grain under the in-grain many-to-many relationships. -/
def estimateRows (es : List Entity) (rels : List Relationship)
    (grainEntities : List String) : RowEstimate :=
  let mmRels := mmFilter rels grainEntities
  let components := findConnectedComponents grainEntities mmRels
  let totalRows := components.foldl (fun acc c => acc + componentContribution es mmRels c) 0
  { rows := totalRows, placeholder_row_count := 0, total := totalRows }

/-! ## Table-level estimation (estimate.ts `estimateTableRows`) -/

/-- Active-entity chain of one included metric: its home entity plus every
propagation-hop target inside the declared grain; `none` when the metric
has no owner or its owner is outside the grain (the loop `continue`s). -/
def metricChain (m : Manifest) (grain : List String) (metricName : String) :
    Option (List String) :=
  match metricOwnerGet m.entities metricName with
  | none => none
  | some owner =>
    if owner.name ∈ grain then
      some (match propGet m.propagations metricName with
        | none => [owner.name]
        | some prop =>
          prop.path.foldl
            (fun c e => if e.target_entity ∈ grain then setAdd c e.target_entity else c)
            [owner.name])
    else none

/-- The chain list accumulated over the table's metrics. -/
def metricChains (m : Manifest) (t : BftTable) : List (List String) :=
  t.metrics.foldl
    (fun cs mn => match metricChain m t.entities mn with
      | some c => cs ++ [c]
      | none => cs)
    []

/-- Whether some many-to-many relationship connects `n` to the chain. -/
def chainConnects (rels : List Relationship) (chain : List String) (n : String) : Bool :=
  rels.any fun r =>
    decide (r.rtype = "many-to-many" ∧
      ((r.between.1 = n ∧ r.between.2 ∈ chain) ∨ (r.between.2 = n ∧ r.between.1 ∈ chain)))

/-- Fold `n` into the first chain it many-to-many connects to, if any. -/
def mergeUncovered (rels : List Relationship) (n : String) :
    List (List String) → Option (List (List String))
  | [] => none
  | c :: cs =>
    if chainConnects rels c n then some (setAdd c n :: cs)
    else match mergeUncovered rels n cs with
      | some cs2 => some (c :: cs2)
      | none => none

/-- The pure-dimension loop of `estimateTableRows`: every grain entity not
covered by the metric chains (coverage is computed once, up front) is
merged into the first connecting chain or appended as a singleton. -/
def addUncovered (m : Manifest) (grain : List String)
    (chains0 : List (List String)) : List (List String) :=
  let covered := chains0.flatMap id
  grain.foldl
    (fun chains n =>
      if n ∈ covered then chains
      else match mergeUncovered m.relationships n chains with
        | some chains2 => chains2
        | none => chains ++ [[n]])
    chains0

/-- Set equality of two chains (both are duplicate-free by construction). -/
def setsEqual (a b : List String) : Bool :=
  a.length == b.length && a.all (fun x => b.contains x)

/-- Strict subset test between chains. -/
def isStrictSubset (small large : List String) : Bool :=
  decide (small.length < large.length) && small.all (fun x => large.contains x)

/-- estimate.ts `removeSubsetChains`: deduplicate, then drop strict
subsets (the source's index-inequality guard is subsumed: a chain is
never a strict subset of itself). -/
def removeSubsetChains (chains : List (List String)) : List (List String) :=
  let unique := chains.foldl
    (fun acc c => if acc.any (fun u => setsEqual u c) then acc else acc ++ [c]) []
  unique.filter (fun c => !(unique.any (fun o => isStrictSubset c o)))

/-- The surviving chains of a table. -/
def effectiveChains (m : Manifest) (t : BftTable) : List (List String) :=
  removeSubsetChains (addUncovered m t.entities (metricChains m t))

/-- Placeholder bookkeeping for one included metric: its home entity name
joins the set when the metric has no declared propagation and the grain has
more than one entity, or when some hop with an in-grain target uses
reserve or elimination; metrics without an owner or with an out-of-grain
owner are skipped. -/
def placeholderAdd (m : Manifest) (grain : List String) (acc : List String)
    (metricName : String) : List String :=
  match metricOwnerGet m.entities metricName with
  | none => acc
  | some owner =>
    if owner.name ∈ grain then
      match propGet m.propagations metricName with
      | none => if grain.length > 1 then setAdd acc owner.name else acc
      | some prop =>
        prop.path.foldl
          (fun a e =>
            if e.target_entity ∈ grain ∧ (e.strategy = "reserve" ∨ e.strategy = "elimination")
            then setAdd a owner.name else a)
          acc
    else acc

/-- The distinct home entities that need placeholder rows, in insertion
order. -/
def placeholderEntities (m : Manifest) (t : BftTable) : List String :=
  t.metrics.foldl (placeholderAdd m t.entities) []

/-- Sum of the resolved entities' declared rows over a name list. -/
def placeholderCount (m : Manifest) (ns : List String) : Nat :=
  ns.foldl
    (fun acc n => acc + ((entityGet m.entities n).map (fun e => e.estimated_rows)).getD 0) 0

/-- estimate.ts `estimateTableRows` (declared-grain revision): sum the
base estimates of the surviving chains, then add placeholder rows. -/
def estimateTableRows (m : Manifest) (t : BftTable) : RowEstimate :=
  let chains := effectiveChains m t
  let totalRows := chains.foldl
    (fun acc c => acc + (estimateRows m.entities m.relationships c).rows) 0
  let ph := placeholderCount m (placeholderEntities m t)
  { rows := totalRows, placeholder_row_count := ph, total := totalRows + ph }

/-! ## Claim-side definitions for the estimator -/

/-- Exactly one endpoint of the edge lies in the prior node set: the
spanning-tree join condition the fan-out rule divides through. -/
def uniqueJoinPoint (e : Relationship) (prior : List String) : Prop :=
  (e.between.1 ∈ prior ∧ e.between.2 ∉ prior)
    ∨ (e.between.2 ∈ prior ∧ e.between.1 ∉ prior)

/-- One fan-out step as the spec words it: the divisor is the rows of the
endpoint already present in the tree (the node set accumulated from the
processed edges); an unresolvable endpoint leaves the total unchanged,
matching the estimator's degradation rule. -/
def specStep (es : List Entity) (s : Nat × List String) (rel : Relationship) :
    Nat × List String :=
  let res :=
    if rel.between.1 ∈ s.2 then
      match entityGet es rel.between.1 with
      | some e => jsRoundDiv (s.1 * rel.estimated_links) e.estimated_rows
      | none => s.1
    else if rel.between.2 ∈ s.2 then
      match entityGet es rel.between.2 with
      | some e => jsRoundDiv (s.1 * rel.estimated_links) e.estimated_rows
      | none => s.1
    else s.1
  (res, s.2 ++ [rel.between.1, rel.between.2])

/-- The fan-out chain computation stated as in the spec: the first tree
edge's links are the base, every further edge multiplies by links over
the rows of the tree-side endpoint, rounding after each step. -/
def specFanOutChain (es : List Entity) : List Relationship → Nat
  | [] => 0
  | r0 :: rest =>
    (rest.foldl (specStep es) (r0.estimated_links, [r0.between.1, r0.between.2])).1

/-- Big-step description of one spanning-tree growth trace: each edge has
exactly one endpoint inside the current node set and extends it by the
other endpoint, ending in the final node set. -/
def goodSpanTo : List String → List Relationship → List String → Prop
  | vis, [], vis2 => vis2 = vis
  | vis, e :: d, vis2 =>
    (e.between.1 ∈ vis ∧ e.between.2 ∉ vis ∧ goodSpanTo (vis ++ [e.between.2]) d vis2)
      ∨ (e.between.2 ∈ vis ∧ e.between.1 ∉ vis ∧ goodSpanTo (vis ++ [e.between.1]) d vis2)

/-- The table pipeline in the order the spec sentences state it (claim
C2): deduplicate and drop strict-subset chains first, then fold the
uncovered grain entities in.  The source performs the fold first; the two
orders disagree (see the corresponding counterexample). -/
def specOrderedChains (m : Manifest) (t : BftTable) : List (List String) :=
  addUncovered m t.entities (removeSubsetChains (metricChains m t))

/-- Row total of the spec-ordered pipeline. -/
def specOrderedRows (m : Manifest) (t : BftTable) : Nat :=
  (specOrderedChains m t).foldl
    (fun acc c => acc + (estimateRows m.entities m.relationships c).rows) 0

/-- A metric triggers the placeholder rule for home-entity name n: it has
an owner named n inside the grain and either no declared propagation with
a multi-entity grain, or some hop with an in-grain target using reserve
or elimination. -/
def triggersPlaceholder (m : Manifest) (grain : List String) (metricName n : String) :
    Prop :=
  ∃ owner, metricOwnerGet m.entities metricName = some owner ∧ owner.name = n
    ∧ n ∈ grain
    ∧ ((propGet m.propagations metricName = none ∧ 1 < grain.length)
       ∨ (∃ prop, propGet m.propagations metricName = some prop
           ∧ ∃ e ∈ prop.path, e.target_entity ∈ grain
               ∧ (e.strategy = "reserve" ∨ e.strategy = "elimination")))

/-! ## Exception-instrumented estimator (for the no-raise claim)

The only operations in the estimator that can throw in the source are the
two non-null assertions `adj.get(...)!` inside the adjacency construction
of `estimateComponentRows`.  The `E` variants below surface exactly those
as `Except.error`; proving them equal to `Except.ok` of the pure variants
shows the assertions can never fire. -/

/-- Modelling `adj.get(a)!.push(pr)` with the assertion made explicit. -/
def adjPushE (adj : AdjP) (a : String) (pr : String × Relationship) :
    Except String AdjP :=
  if adj.any (fun p => p.1 = a) then .ok (adjPush adj a pr)
  else .error ("missing adjacency key " ++ a)

/-- The adjacency construction with explicit assertions. -/
def buildAdjPE (component : List String) (mmRels : List Relationship) :
    Except String AdjP :=
  mmRels.foldlM
    (fun m r =>
      if decide (r.between.1 ∈ component ∧ r.between.2 ∈ component) then do
        let m1 ← adjPushE m r.between.1 (r.between.2, r)
        adjPushE m1 r.between.2 (r.between.1, r)
      else pure m)
    (adjInitP component)

/-- `estimateComponentRows` with the assertions made explicit. -/
def estimateComponentRowsE (component : List String) (mmRels : List Relationship)
    (es : List Entity) : Except String Nat := do
  let adj ← buildAdjPE component mmRels
  let span := match component with
    | [] => []
    | c0 :: _ => spanAux adj (component.length + 1) [c0] [c0] []
  match span with
  | [] =>
    pure (match component with
      | [] => 0
      | c0 :: _ => ((entityGet es c0).map (fun e => e.estimated_rows)).getD 0)
  | r0 :: rest => pure ((rest.foldl (fanOutStep es) (r0.estimated_links, [r0])).1)

/-- Per-component contribution with explicit assertions. -/
def componentContributionE (es : List Entity) (mmRels : List Relationship)
    (component : List String) : Except String Nat :=
  match component with
  | [x] => pure (((entityGet es x).map (fun e => e.estimated_rows)).getD 0)
  | _ => estimateComponentRowsE component mmRels es

/-- `estimateRows` with explicit assertions. -/
def estimateRowsE (es : List Entity) (rels : List Relationship)
    (grainEntities : List String) : Except String RowEstimate := do
  let mmRels := mmFilter rels grainEntities
  let components := findConnectedComponents grainEntities mmRels
  let totalRows ← components.foldlM
    (fun acc c => do pure (acc + (← componentContributionE es mmRels c))) 0
  pure { rows := totalRows, placeholder_row_count := 0, total := totalRows }

/-- `estimateTableRows` with explicit assertions (all of them inherited
from the per-chain base estimation). -/
def estimateTableRowsE (m : Manifest) (t : BftTable) : Except String RowEstimate := do
  let chains := effectiveChains m t
  let totalRows ← chains.foldlM
    (fun acc c => do
      pure (acc + (← estimateRowsE m.entities m.relationships c).rows)) 0
  let ph := placeholderCount m (placeholderEntities m t)
  pure { rows := totalRows, placeholder_row_count := ph, total := totalRows + ph }

/-! ## Validator (validate.ts) -/

/-- One validation finding (validate.ts `ValidationError`). -/
structure ValidationError where
  rule : String
  message : String
  path : Option String := none
deriving Repr, DecidableEq

/-- Duplicate scan over a name list (validate.ts `checkDuplicates`): a
finding per occurrence after the first; the seen set grows regardless. -/
def checkDuplicates (names : List String) (kind : String) : List ValidationError :=
  (names.foldl
    (fun (st : List String × List ValidationError) n =>
      if n ∈ st.1 then
        (st.1, st.2 ++ [⟨"no-duplicates",
          "Duplicate " ++ kind ++ " name: \"" ++ n ++ "\"",
          some (kind ++ "s." ++ n)⟩])
      else (st.1 ++ [n], st.2))
    ([], [])).2

/-- validate.ts `checkDuplicateNames`. -/
def checkDuplicateNames (m : Manifest) : List ValidationError :=
  checkDuplicates (m.entities.map (fun e => e.name)) "entity"
    ++ checkDuplicates (m.entities.flatMap (fun e => e.metrics.map (fun md => md.name))) "metric"
    ++ checkDuplicates (m.relationships.map (fun r => r.name)) "relationship"
    ++ checkDuplicates (m.propagations.map (fun p => p.metric)) "propagation"
    ++ checkDuplicates (m.bft_tables.map (fun t => t.name)) "table"

/-- validate.ts `checkPositiveCardinalities`.  With cardinalities embedded
as `Nat`, the non-integer branch is vacuous and only the non-positive
check (value = 0) can fire. -/
def checkPositiveCardinalities (m : Manifest) : List ValidationError :=
  (m.entities.filterMap fun e =>
    if e.estimated_rows = 0 then
      some ⟨"positive-cardinality",
        "Entity \"" ++ e.name ++ "\" has invalid estimated_rows: "
          ++ toString e.estimated_rows ++ " (must be a positive integer)",
        some ("entities." ++ e.name ++ ".estimated_rows")⟩
    else none)
  ++ (m.relationships.filterMap fun r =>
    if r.estimated_links = 0 then
      some ⟨"positive-cardinality",
        "Relationship \"" ++ r.name ++ "\" has invalid estimated_links: "
          ++ toString r.estimated_links ++ " (must be a positive integer)",
        some ("relationships." ++ r.name ++ ".estimated_links")⟩
    else none)

/-- validate.ts `checkRelationshipEntities`.  The `between` field is a
pair in this embedding, so the arity error (`relationship-between-pair`)
cannot fire and only the existence checks remain. -/
def checkRelationshipEntities (m : Manifest) : List ValidationError :=
  m.relationships.flatMap fun r =>
    [r.between.1, r.between.2].filterMap fun n =>
      if (entityGet m.entities n).isSome then none
      else some ⟨"relationship-entity-exists",
        "Relationship \"" ++ r.name ++ "\" references nonexistent entity \"" ++ n ++ "\"",
        some ("relationships." ++ r.name ++ ".between")⟩

/-- Error location string for one propagation hop. -/
def pathLoc (metric : String) (i : Nat) : Option String :=
  some ("propagations." ++ metric ++ ".path[" ++ toString i ++ "]")

/-- The recognised strategy values (types.ts `VALID_STRATEGIES`). -/
def validStrategies : List String := ["reserve", "elimination", "allocation", "sum_over_sum"]

/-- JS falsiness of the optional weight (`!edge.weight`): missing or
empty string. -/
def weightMissing : Option String → Bool
  | none => true
  | some s => s == ""

/-- The error batch of one propagation hop that passed the two reference
checks, in source push order: connectivity, strategy validity, weight
requirement, cycle, non-additive strategy. -/
def edgeErrors (m : Manifest) (metric : String) (defn : Option MetricDef)
    (i : Nat) (cur : String) (vis : List String) (e : PropagationEdge) :
    List ValidationError :=
  (match relGet m.relationships e.relationship with
   | some rel =>
     if (rel.between.1 = cur ∧ rel.between.2 = e.target_entity)
        ∨ (rel.between.2 = cur ∧ rel.between.1 = e.target_entity) then []
     else [⟨"propagation-path-connected",
       "Propagation for \"" ++ metric ++ "\": relationship \"" ++ e.relationship
         ++ "\" does not connect \"" ++ cur ++ "\" to \"" ++ e.target_entity ++ "\"",
       pathLoc metric i⟩]
   | none => [])
  ++ (if e.strategy ∈ validStrategies then []
      else [⟨"valid-strategy",
        "Propagation for \"" ++ metric ++ "\" has invalid strategy \"" ++ e.strategy
          ++ "\" — must be one of: reserve, elimination, allocation, sum_over_sum",
        pathLoc metric i⟩])
  ++ (if (e.strategy = "allocation" ∨ e.strategy = "sum_over_sum") ∧ weightMissing e.weight then
        [⟨"strategy-weight-required",
          "Propagation for \"" ++ metric ++ "\": strategy \"" ++ e.strategy
            ++ "\" requires a weight",
          pathLoc metric i⟩]
      else [])
  ++ (if e.target_entity ∈ vis then
        [⟨"propagation-no-cycle",
          "Propagation for \"" ++ metric ++ "\" creates a cycle: \"" ++ e.target_entity
            ++ "\" already visited",
          pathLoc metric i⟩]
      else [])
  ++ (match defn with
      | some d =>
        if d.nature = "non-additive" ∧ (e.strategy = "allocation" ∨ e.strategy = "elimination") then
          [⟨"non-additive-strategy",
            "Non-additive metric \"" ++ metric ++ "\" cannot use \"" ++ e.strategy
              ++ "\" strategy — must use \"sum_over_sum\" or \"reserve\"",
            pathLoc metric i⟩]
        else []
      | none => [])

/-- The hop walk of `checkPropagations`: a hop whose relationship or
target entity does not resolve reports that and `continue`s without
touching the current entity or the visited set; a resolving hop reports
its `edgeErrors` batch, then advances and marks its target visited. -/
def walkPath (m : Manifest) (metric : String) (defn : Option MetricDef) :
    List PropagationEdge → Nat → String → List String → List ValidationError
  | [], _, _, _ => []
  | e :: rest, i, cur, vis =>
    if e.relationship ∉ m.relationships.map (fun r => r.name) then
      ⟨"propagation-relationship-exists",
        "Propagation for \"" ++ metric ++ "\" references nonexistent relationship \""
          ++ e.relationship ++ "\"",
        pathLoc metric i⟩ :: walkPath m metric defn rest (i + 1) cur vis
    else if (entityGet m.entities e.target_entity).isSome = false then
      ⟨"propagation-entity-exists",
        "Propagation for \"" ++ metric ++ "\" references nonexistent target entity \""
          ++ e.target_entity ++ "\"",
        pathLoc metric i⟩ :: walkPath m metric defn rest (i + 1) cur vis
    else
      edgeErrors m metric defn i cur vis e
        ++ walkPath m metric defn rest (i + 1) e.target_entity (setAdd vis e.target_entity)

/-- Errors of one declared propagation: unknown metric and empty path
short-circuit, otherwise the path is walked from the home entity. -/
def propErrors (m : Manifest) (p : MetricPropagation) : List ValidationError :=
  match metricOwnerGet m.entities p.metric with
  | none => [⟨"propagation-metric-exists",
      "Propagation references nonexistent metric \"" ++ p.metric ++ "\"",
      some ("propagations." ++ p.metric)⟩]
  | some owner =>
    if p.path = [] then
      [⟨"propagation-path-nonempty",
        "Propagation for \"" ++ p.metric ++ "\" has an empty path — omit the propagation to use reserve",
        some ("propagations." ++ p.metric)⟩]
    else walkPath m p.metric (findMetricDef m.entities p.metric) p.path 0 owner.name [owner.name]

/-- validate.ts `checkPropagations`. -/
def checkPropagations (m : Manifest) : List ValidationError :=
  m.propagations.flatMap (propErrors m)

/-- validate.ts `checkTableMetrics`. -/
def tableMetricErrors (m : Manifest) (t : BftTable) : List ValidationError :=
  (t.metrics.foldl
    (fun (st : List String × List ValidationError) mn =>
      let dup : List ValidationError :=
        if mn ∈ st.1 then
          [⟨"table-metric-unique",
            "Table \"" ++ t.name ++ "\" lists metric \"" ++ mn ++ "\" more than once",
            some ("bft_tables." ++ t.name ++ ".metrics")⟩]
        else []
      let missing : List ValidationError :=
        if (metricOwnerGet m.entities mn).isSome then []
        else [⟨"table-metric-exists",
          "Table \"" ++ t.name ++ "\" references nonexistent metric \"" ++ mn ++ "\"",
          some ("bft_tables." ++ t.name ++ ".metrics." ++ mn)⟩]
      (setAdd st.1 mn, st.2 ++ dup ++ missing))
    ([], [])).2

/-- Aggregation over the tables. -/
def checkTableMetrics (m : Manifest) : List ValidationError :=
  m.bft_tables.flatMap (tableMetricErrors m)

/-- validate.ts `validate`: the five checks run unconditionally and their
findings are concatenated in check order. -/
def validate (m : Manifest) : List ValidationError :=
  checkDuplicateNames m ++ checkPositiveCardinalities m
    ++ checkRelationshipEntities m ++ checkPropagations m ++ checkTableMetrics m

/-- The visited set the hop walk has accumulated after consuming a list of
hops: targets of hops that passed both reference checks, nothing else. -/
def walkVisited (m : Manifest) : List PropagationEdge → List String → List String
  | [], vis => vis
  | e :: rest, vis =>
    if e.relationship ∉ m.relationships.map (fun r => r.name) then
      walkVisited m rest vis
    else if (entityGet m.entities e.target_entity).isSome = false then
      walkVisited m rest vis
    else walkVisited m rest (setAdd vis e.target_entity)

/-! ## Concrete fixtures

The university scenario of the spec's testable properties, the scenarios
the estimate tests pin down, and the small manifests used to settle the
claims' edge cases. -/

def uniStudent : Entity :=
  ⟨"Student", "leaf", true, 45000,
    [⟨"tuition_paid", "currency", "additive"⟩,
     ⟨"satisfaction_score", "rating", "non-additive"⟩]⟩

def uniClass : Entity :=
  ⟨"Class", "bridge", true, 1200, [⟨"class_budget", "currency", "additive"⟩]⟩

def uniProfessor : Entity :=
  ⟨"Professor", "leaf", true, 800, [⟨"salary", "currency", "additive"⟩]⟩

def uniEnrollment : Relationship :=
  ⟨"Enrollment", ("Student", "Class"), "many-to-many", 120000, none⟩

def uniAssignment : Relationship :=
  ⟨"Assignment", ("Class", "Professor"), "many-to-many", 1800, none⟩

def uniEntities : List Entity := [uniStudent, uniClass, uniProfessor]

def uniRels : List Relationship := [uniEnrollment, uniAssignment]

/-- The table of the estimate tests: declared grain Student x Class x
Professor, tuition allocated along the chain, salary left undeclared. -/
def uniManifest : Manifest :=
  ⟨uniEntities, uniRels,
    [⟨"tuition_paid",
      [⟨"Enrollment", "Class", "allocation", some "enrollment_share"⟩,
       ⟨"Assignment", "Professor", "allocation", some "assignment_share"⟩]⟩],
    []⟩

def uniTable : BftTable :=
  ⟨"test", ["Student", "Class", "Professor"], ["tuition_paid", "salary"]⟩

/-- Chain-order fixture: metrics m1 (bare) and m2 (propagating to B) both
live on A; C is an uncovered grain entity connected to A.  The source
folds C in before subset removal, the spec sentence order after; the two
orders give different row totals here. -/
def cexManifest : Manifest :=
  ⟨[⟨"A", "leaf", true, 10, [⟨"m1", "currency", "additive"⟩, ⟨"m2", "currency", "additive"⟩]⟩,
    ⟨"B", "leaf", true, 10, []⟩,
    ⟨"C", "leaf", true, 10, []⟩],
   [⟨"RAB", ("A", "B"), "many-to-many", 100, none⟩,
    ⟨"RAC", ("A", "C"), "many-to-many", 7, none⟩],
   [⟨"m2", [⟨"RAB", "B", "allocation", some "w"⟩]⟩],
   []⟩

def cexTable : BftTable := ⟨"t", ["A", "B", "C"], ["m1", "m2"]⟩

/-- Entities for the validator fixtures: metric mna on A is non-additive. -/
def naEntityA : Entity := ⟨"A", "leaf", true, 10, [⟨"mna", "rating", "non-additive"⟩]⟩

def naEntityB : Entity := ⟨"B", "leaf", true, 10, []⟩

def naRelAB : Relationship := ⟨"RABn", ("A", "B"), "many-to-many", 10, none⟩

/-- Non-additive metric with an allocation hop whose relationship does not
exist: the hop is skipped before the nature check. -/
def natViolManifest : Manifest :=
  ⟨[naEntityA, naEntityB], [], [⟨"mna", [⟨"R", "B", "allocation", some "w"⟩]⟩], []⟩

/-- Non-additive metric whose single hop resolves and uses sum_over_sum. -/
def natOkManifest : Manifest :=
  ⟨[naEntityA, naEntityB], [naRelAB],
    [⟨"mna", [⟨"RABn", "B", "sum_over_sum", some "w"⟩]⟩], []⟩

/-- A path revisiting the home entity at a hop whose relationship does not
exist: the hop is skipped before the cycle check. -/
def cycViolManifest : Manifest :=
  ⟨[naEntityA, naEntityB], [], [⟨"mna", [⟨"R", "A", "sum_over_sum", some "w"⟩]⟩], []⟩

/-- A path revisiting the home entity at a hop that passes both reference
checks. -/
def cycOkManifest : Manifest :=
  ⟨[naEntityA, naEntityB], [naRelAB],
    [⟨"mna", [⟨"RABn", "B", "sum_over_sum", some "w"⟩,
              ⟨"RABn", "A", "sum_over_sum", some "w"⟩]⟩], []⟩

/-- Non-additive metric with an allocation hop that passes both reference
checks: the nature check fires. -/
def natAllocManifest : Manifest :=
  ⟨[naEntityA, naEntityB], [naRelAB],
    [⟨"mna", [⟨"RABn", "B", "allocation", some "w"⟩]⟩], []⟩

/-! ## Basic lemmas about the set and fold primitives -/

theorem mem_setAdd {x s : String} {l : List String} :
    x ∈ setAdd l s ↔ x ∈ l ∨ x = s := by
  unfold setAdd
  by_cases h : s ∈ l
  · simp only [if_pos h]
    exact ⟨Or.inl, fun hx => hx.elim id (fun he => he ▸ h)⟩
  · simp [if_neg h]

theorem nodup_setAdd {s : String} {l : List String} (h : l.Nodup) :
    (setAdd l s).Nodup := by
  unfold setAdd
  by_cases hs : s ∈ l
  · simpa [hs]
  · simp [hs, List.nodup_append, h, List.disjoint_singleton]

theorem foldl_add_sum {α : Type} (f : α → Nat) :
    ∀ (l : List α) (n : Nat), l.foldl (fun acc c => acc + f c) n = n + (l.map f).sum := by
  intro l
  induction l with
  | nil => simp
  | cons x t ih => intro n; simp [ih, Nat.add_assoc]

/-! ## Claim C4 -/

/-- Claim C4: the rows returned by estimateRows are the sum over the
connected components of the grain (under in-grain many-to-many
relationships) of the per-component contribution — components combine
additively, never multiplicatively; a singleton component whose entity
resolves contributes that entity's estimated_rows; and for the grain
[Student, Professor] with no relationship connecting them the result is
45000 + 800 = 45800. -/
theorem estimateRows_additive_over_components :
    (∀ (es : List Entity) (rels : List Relationship) (grain : List String),
      (estimateRows es rels grain).rows
        = ((findConnectedComponents grain (mmFilter rels grain)).map
            (componentContribution es (mmFilter rels grain))).sum)
    ∧ (∀ (es : List Entity) (mm : List Relationship) (x : String) (e : Entity),
        entityGet es x = some e → componentContribution es mm [x] = e.estimated_rows)
    ∧ (estimateRows uniEntities uniRels ["Student", "Professor"]).rows = 45800 := by
  refine ⟨?_, ?_, by decide⟩
  · intro es rels grain
    simp [estimateRows, foldl_add_sum]
  · intro es mm x e h
    simp [componentContribution, h]

/-- Concrete instantiation of the singleton clause of the C4 theorem. -/
theorem estimateRows_additive_over_components_witness :
    entityGet uniEntities "Professor" = some uniProfessor
    ∧ componentContribution uniEntities [] ["Professor"] = uniProfessor.estimated_rows :=
  ⟨by decide,
   estimateRows_additive_over_components.2.1 uniEntities [] "Professor" uniProfessor (by decide)⟩

/-! ## Claim C3 -/

theorem mem_foldl_setAdd_if {α : Type} (p : α → Prop) [DecidablePred p] (nm : String) :
    ∀ (l : List α) (acc : List String) (n : String),
      n ∈ l.foldl (fun a e => if p e then setAdd a nm else a) acc
        ↔ n ∈ acc ∨ (n = nm ∧ ∃ e ∈ l, p e) := by
  intro l
  induction l with
  | nil => simp
  | cons x t ih =>
    intro acc n
    by_cases hx : p x
    · rw [List.foldl_cons, if_pos hx, ih]
      constructor
      · rintro (h | ⟨rfl, e, he, hpe⟩)
        · rcases mem_setAdd.mp h with h2 | rfl
          · exact Or.inl h2
          · exact Or.inr ⟨rfl, x, List.mem_cons_self x t, hx⟩
        · exact Or.inr ⟨rfl, e, List.mem_cons_of_mem _ he, hpe⟩
      · rintro (h | ⟨rfl, e, he, hpe⟩)
        · exact Or.inl (mem_setAdd.mpr (Or.inl h))
        · rcases List.mem_cons.mp he with rfl | he2
          · exact Or.inl (mem_setAdd.mpr (Or.inr rfl))
          · exact Or.inr ⟨rfl, e, he2, hpe⟩
    · rw [List.foldl_cons, if_neg hx, ih]
      constructor
      · rintro (h | ⟨rfl, e, he, hpe⟩)
        · exact Or.inl h
        · exact Or.inr ⟨rfl, e, List.mem_cons_of_mem _ he, hpe⟩
      · rintro (h | ⟨rfl, e, he, hpe⟩)
        · exact Or.inl h
        · rcases List.mem_cons.mp he with rfl | he2
          · exact absurd hpe hx
          · exact Or.inr ⟨rfl, e, he2, hpe⟩

theorem nodup_foldl_setAdd_if {α : Type} (p : α → Prop) [DecidablePred p] (nm : String) :
    ∀ (l : List α) (acc : List String), acc.Nodup →
      (l.foldl (fun a e => if p e then setAdd a nm else a) acc).Nodup := by
  intro l
  induction l with
  | nil => intro acc h; simpa
  | cons x t ih =>
    intro acc h
    by_cases hx : p x
    · simp only [List.foldl_cons, if_pos hx]
      exact ih _ (nodup_setAdd h)
    · simp only [List.foldl_cons, if_neg hx]
      exact ih _ h

theorem mem_placeholderAdd (m : Manifest) (grain : List String) (acc : List String)
    (mn n : String) :
    n ∈ placeholderAdd m grain acc mn ↔ n ∈ acc ∨ triggersPlaceholder m grain mn n := by
  unfold placeholderAdd triggersPlaceholder
  cases howner : metricOwnerGet m.entities mn with
  | none => simp
  | some owner =>
    dsimp only
    by_cases hg : owner.name ∈ grain
    · rw [if_pos hg]
      cases hprop : propGet m.propagations mn with
      | none =>
        dsimp only
        by_cases hlen : grain.length > 1
        · rw [if_pos hlen]
          constructor
          · intro h
            rcases mem_setAdd.mp h with h2 | rfl
            · exact Or.inl h2
            · exact Or.inr ⟨owner, rfl, rfl, hg, Or.inl ⟨rfl, hlen⟩⟩
          · rintro (h | ⟨o, ho, hon, hmem, hc⟩)
            · exact mem_setAdd.mpr (Or.inl h)
            · obtain rfl : owner = o := Option.some.inj ho
              exact mem_setAdd.mpr (Or.inr hon.symm)
        · rw [if_neg hlen]
          constructor
          · exact Or.inl
          · rintro (h | ⟨o, ho, hon, hmem, hc⟩)
            · exact h
            · obtain rfl : owner = o := Option.some.inj ho
              rcases hc with ⟨_, hl⟩ | ⟨p, hp, _⟩
              · exact absurd hl hlen
              · cases hp
      | some prop =>
        dsimp only
        rw [mem_foldl_setAdd_if
          (fun e => e.target_entity ∈ grain ∧ (e.strategy = "reserve" ∨ e.strategy = "elimination"))
          owner.name prop.path acc n]
        constructor
        · rintro (h | ⟨rfl, e, he, hco⟩)
          · exact Or.inl h
          · exact Or.inr ⟨owner, rfl, rfl, hg, Or.inr ⟨prop, rfl, e, he, hco⟩⟩
        · rintro (h | ⟨o, ho, hon, hmem, hc⟩)
          · exact Or.inl h
          · obtain rfl : owner = o := Option.some.inj ho
            rcases hc with ⟨hnone, _⟩ | ⟨p, hp, e, he, hco⟩
            · cases hnone
            · obtain rfl : prop = p := Option.some.inj hp
              exact Or.inr ⟨hon.symm, e, he, hco⟩
    · rw [if_neg hg]
      constructor
      · exact Or.inl
      · rintro (h | ⟨o, ho, hon, hmem, hc⟩)
        · exact h
        · obtain rfl : owner = o := Option.some.inj ho
          exact absurd (by rw [hon]; exact hmem) hg

theorem nodup_placeholderAdd (m : Manifest) (grain : List String) (acc : List String)
    (mn : String) (h : acc.Nodup) : (placeholderAdd m grain acc mn).Nodup := by
  unfold placeholderAdd
  cases metricOwnerGet m.entities mn with
  | none => simpa
  | some owner =>
    by_cases hg : owner.name ∈ grain
    · simp only [if_pos hg]
      cases propGet m.propagations mn with
      | none =>
        by_cases hlen : grain.length > 1
        · simpa [hlen] using nodup_setAdd h
        · simpa [hlen]
      | some prop =>
        exact nodup_foldl_setAdd_if _ _ prop.path acc h
    · simpa [hg]

theorem mem_placeholderEntities_aux (m : Manifest) (grain : List String) :
    ∀ (ms : List String) (acc : List String) (n : String),
      n ∈ ms.foldl (placeholderAdd m grain) acc
        ↔ n ∈ acc ∨ ∃ mn ∈ ms, triggersPlaceholder m grain mn n := by
  intro ms
  induction ms with
  | nil => simp
  | cons x t ih =>
    intro acc n
    simp only [List.foldl_cons, ih, mem_placeholderAdd]
    constructor
    · rintro ((h | h) | ⟨mn, hmn, ht⟩)
      · exact Or.inl h
      · exact Or.inr ⟨x, by simp, h⟩
      · exact Or.inr ⟨mn, List.mem_cons_of_mem _ hmn, ht⟩
    · rintro (h | ⟨mn, hmn, ht⟩)
      · exact Or.inl (Or.inl h)
      · rcases List.mem_cons.mp hmn with rfl | h2
        · exact Or.inl (Or.inr ht)
        · exact Or.inr ⟨mn, h2, ht⟩

/-- Claim C3: the placeholder count of estimateTableRows is the sum of
estimated_rows over the distinct home entities of included metrics that
trigger the placeholder rule (no declared propagation with a multi-entity
grain, or an in-grain reserve/elimination hop), each home entity counted
once; the returned total is rows + placeholder_row_count; and the
university table including salary (home Professor, no propagation) gains
exactly 800 placeholder rows, for a total of 180800. -/
theorem estimateTableRows_placeholder_rule :
    (∀ (m : Manifest) (t : BftTable) (n : String),
      n ∈ placeholderEntities m t
        ↔ ∃ mn ∈ t.metrics, triggersPlaceholder m t.entities mn n)
    ∧ (∀ (m : Manifest) (t : BftTable), (placeholderEntities m t).Nodup)
    ∧ (∀ (m : Manifest) (t : BftTable),
      (estimateTableRows m t).placeholder_row_count
        = ((placeholderEntities m t).map
            (fun n => ((entityGet m.entities n).map (fun e => e.estimated_rows)).getD 0)).sum
      ∧ (estimateTableRows m t).total
        = (estimateTableRows m t).rows + (estimateTableRows m t).placeholder_row_count)
    ∧ (estimateTableRows uniManifest uniTable).placeholder_row_count = 800
    ∧ (estimateTableRows uniManifest uniTable).total = 180800 := by
  refine ⟨?_, ?_, ?_, by decide, by decide⟩
  · intro m t n
    simpa [placeholderEntities] using mem_placeholderEntities_aux m t.entities t.metrics [] n
  · intro m t
    unfold placeholderEntities
    generalize t.metrics = ms
    induction ms using List.reverseRecOn with
    | nil => simp
    | append_singleton t2 x ih =>
      rw [List.foldl_append]
      exact nodup_placeholderAdd _ _ _ _ ih
  · intro m t
    refine ⟨?_, rfl⟩
    simp [estimateTableRows, placeholderCount, foldl_add_sum]

/-! ## Claims C9 and C10 -/

theorem foldl_middle_id {α β : Type} (f : β → α → β) (x : α) (h : ∀ s, f s x = s)
    (l1 l2 : List α) (i : β) :
    List.foldl f i (l1 ++ x :: l2) = List.foldl f i (l1 ++ l2) := by
  simp [List.foldl_append, List.foldl_cons, h]

theorem foldl_setAdd_if_none {α : Type} (p : α → Prop) [DecidablePred p] (nm : String)
    (l : List α) (h : ∀ e ∈ l, ¬ p e) :
    ∀ acc, l.foldl (fun a e => if p e then setAdd a nm else a) acc = acc := by
  induction l with
  | nil => intro acc; rfl
  | cons x t ih =>
    intro acc
    rw [List.foldl_cons, if_neg (h x (List.mem_cons_self x t))]
    exact ih (fun e he => h e (List.mem_cons_of_mem _ he)) acc

/-- Claim C9: an included metric whose home entity resolves but is not
among the table's declared grain entities is ignored entirely by
estimateTableRows — it produces no active-entity chain and no placeholder
contribution, so the whole estimate equals that of the same table with the
metric removed. -/
theorem estimateTableRows_ignores_foreign_home
    (m : Manifest) (tn : String) (g l1 l2 : List String) (mn : String) (o : Entity)
    (howner : metricOwnerGet m.entities mn = some o) (hg : o.name ∉ g) :
    estimateTableRows m ⟨tn, g, l1 ++ mn :: l2⟩ = estimateTableRows m ⟨tn, g, l1 ++ l2⟩ := by
  have hchain : metricChain m g mn = none := by
    unfold metricChain; rw [howner]; dsimp only; rw [if_neg hg]
  have hph : ∀ acc, placeholderAdd m g acc mn = acc := by
    intro acc; unfold placeholderAdd; rw [howner]; dsimp only; rw [if_neg hg]
  have h1 : metricChains m ⟨tn, g, l1 ++ mn :: l2⟩ = metricChains m ⟨tn, g, l1 ++ l2⟩ := by
    unfold metricChains
    exact foldl_middle_id _ mn (fun s => by rw [hchain]) l1 l2 []
  have h2 : placeholderEntities m ⟨tn, g, l1 ++ mn :: l2⟩
      = placeholderEntities m ⟨tn, g, l1 ++ l2⟩ := by
    unfold placeholderEntities
    exact foldl_middle_id _ mn hph l1 l2 []
  simp only [estimateTableRows, effectiveChains, h1, h2]

/-- Concrete instantiation of the C9 theorem: dropping salary (home
Professor) from a Student x Class table leaves the estimate unchanged. -/
theorem estimateTableRows_ignores_foreign_home_witness :
    metricOwnerGet uniManifest.entities "salary" = some uniProfessor
    ∧ "Professor" ∉ ["Student", "Class"]
    ∧ estimateTableRows uniManifest ⟨"t2", ["Student", "Class"], ["tuition_paid", "salary"]⟩
        = estimateTableRows uniManifest ⟨"t2", ["Student", "Class"], ["tuition_paid"]⟩ :=
  ⟨by decide, by decide,
   estimateTableRows_ignores_foreign_home uniManifest "t2" ["Student", "Class"]
     ["tuition_paid"] [] "salary" uniProfessor (by decide) (by decide)⟩

/-- Claim C10: in a table with a multi-entity grain, an included metric
with a declared non-empty propagation all of whose hops leave the grain
contributes no placeholder rows: removing the metric leaves
placeholder_row_count unchanged (the implicit reserve default applies only
to metrics with no declared propagation at all). -/
theorem estimateTableRows_out_hops_no_placeholder
    (m : Manifest) (tn : String) (g l1 l2 : List String) (mn : String) (o : Entity)
    (pr : MetricPropagation)
    (howner : metricOwnerGet m.entities mn = some o)
    (hprop : propGet m.propagations mn = some pr)
    (hne : pr.path ≠ [])
    (hout : ∀ e ∈ pr.path, e.target_entity ∉ g)
    (hlen : 2 ≤ g.length) :
    (estimateTableRows m ⟨tn, g, l1 ++ mn :: l2⟩).placeholder_row_count
      = (estimateTableRows m ⟨tn, g, l1 ++ l2⟩).placeholder_row_count := by
  have hph : ∀ acc, placeholderAdd m g acc mn = acc := by
    intro acc
    unfold placeholderAdd
    rw [howner]
    dsimp only
    by_cases hgo : o.name ∈ g
    · rw [if_pos hgo, hprop]
      dsimp only
      exact foldl_setAdd_if_none _ o.name pr.path
        (fun e he hc => hout e he hc.1) acc
    · rw [if_neg hgo]
  have h2 : placeholderEntities m ⟨tn, g, l1 ++ mn :: l2⟩
      = placeholderEntities m ⟨tn, g, l1 ++ l2⟩ := by
    unfold placeholderEntities
    exact foldl_middle_id _ mn hph l1 l2 []
  simp only [estimateTableRows, h2]

/-- Concrete instantiation of the C10 theorem: tuition declared to
propagate only to Professor, who is outside the Student x Class grain,
adds no placeholder rows. -/
theorem estimateTableRows_out_hops_no_placeholder_witness :
    propGet
        [⟨"tuition_paid", [⟨"Assignment", "Professor", "reserve", none⟩]⟩]
        "tuition_paid"
      = some ⟨"tuition_paid", [⟨"Assignment", "Professor", "reserve", none⟩]⟩
    ∧ (estimateTableRows
        ⟨uniEntities, uniRels, [⟨"tuition_paid", [⟨"Assignment", "Professor", "reserve", none⟩]⟩], []⟩
        ⟨"t3", ["Student", "Class"], ["tuition_paid"]⟩).placeholder_row_count
      = (estimateTableRows
        ⟨uniEntities, uniRels, [⟨"tuition_paid", [⟨"Assignment", "Professor", "reserve", none⟩]⟩], []⟩
        ⟨"t3", ["Student", "Class"], []⟩).placeholder_row_count :=
  ⟨by decide,
   estimateTableRows_out_hops_no_placeholder
     ⟨uniEntities, uniRels, [⟨"tuition_paid", [⟨"Assignment", "Professor", "reserve", none⟩]⟩], []⟩
     "t3" ["Student", "Class"] [] [] "tuition_paid" uniStudent
     ⟨"tuition_paid", [⟨"Assignment", "Professor", "reserve", none⟩]⟩
     (by decide) (by decide) (by decide) (by decide) (by decide)⟩

/-! ## Claim C8 -/

theorem any_key_adjPush (a : String) (pr : String × Relationship) (b : String) :
    ∀ (adj : AdjP),
      (adjPush adj a pr).any (fun p => p.1 = b) = adj.any (fun p => p.1 = b) := by
  intro adj
  induction adj with
  | nil => rfl
  | cons q t ih =>
    simp only [adjPush, List.map_cons, List.any_cons] at ih ⊢
    by_cases hq : q.1 = a
    · simp only [if_pos hq]
      rw [ih]
    · simp only [if_neg hq]
      rw [ih]

theorem adjInitP_any_key_aux :
    ∀ (names : List String) (acc : AdjP) (b : String),
      (b ∈ names ∨ acc.any (fun p => p.1 = b) = true) →
      ((names.foldl
        (fun acc n => if acc.any (fun p => p.1 = n) then acc else acc ++ [(n, [])])
        acc).any (fun p => p.1 = b)) = true := by
  intro names
  induction names with
  | nil =>
    intro acc b h
    rcases h with h | h
    · cases h
    · exact h
  | cons n t ih =>
    intro acc b h
    rw [List.foldl_cons]
    apply ih
    by_cases hc : acc.any (fun p => p.1 = n) = true
    · rw [if_pos hc]
      rcases h with h | h
      · rcases List.mem_cons.mp h with rfl | h2
        · exact Or.inr hc
        · exact Or.inl h2
      · exact Or.inr h
    · rw [if_neg hc]
      rcases h with h | h
      · rcases List.mem_cons.mp h with rfl | h2
        · refine Or.inr ?_
          simp [List.any_append]
        · exact Or.inl h2
      · refine Or.inr ?_
        simp [List.any_append, h]

theorem adjInitP_any_key (names : List String) (b : String) (h : b ∈ names) :
    (adjInitP names).any (fun p => p.1 = b) = true :=
  adjInitP_any_key_aux names [] b (Or.inl h)

theorem except_ok_bind {α β : Type} (a : α) (f : α → Except String β) :
    (Except.ok a >>= f) = f a := rfl

theorem except_pure_bind {α β : Type} (a : α) (f : α → Except String β) :
    ((pure a : Except String α) >>= f) = f a := rfl

theorem buildAdjPE_ok_aux (component : List String) :
    ∀ (mmRels : List Relationship) (acc : AdjP),
      (∀ b ∈ component, acc.any (fun p => p.1 = b) = true) →
      mmRels.foldlM
        (fun m r =>
          if decide (r.between.1 ∈ component ∧ r.between.2 ∈ component) then do
            let m1 ← adjPushE m r.between.1 (r.between.2, r)
            adjPushE m1 r.between.2 (r.between.1, r)
          else pure m)
        acc
      = Except.ok (mmRels.foldl
          (fun m r =>
            if decide (r.between.1 ∈ component ∧ r.between.2 ∈ component) then
              adjPush (adjPush m r.between.1 (r.between.2, r)) r.between.2 (r.between.1, r)
            else m)
          acc) := by
  intro mmRels
  induction mmRels with
  | nil => intro acc hinv; rfl
  | cons r t ih =>
    intro acc hinv
    rw [List.foldlM_cons, List.foldl_cons]
    by_cases hr : (decide (r.between.1 ∈ component ∧ r.between.2 ∈ component)) = true
    · obtain ⟨hr1, hr2⟩ := of_decide_eq_true hr
      have h1 : adjPushE acc r.between.1 (r.between.2, r)
          = Except.ok (adjPush acc r.between.1 (r.between.2, r)) := by
        unfold adjPushE
        rw [if_pos (hinv _ hr1)]
      have h2 : adjPushE (adjPush acc r.between.1 (r.between.2, r)) r.between.2 (r.between.1, r)
          = Except.ok (adjPush (adjPush acc r.between.1 (r.between.2, r)) r.between.2 (r.between.1, r)) := by
        unfold adjPushE
        rw [if_pos]
        rw [any_key_adjPush]
        exact hinv _ hr2
      rw [if_pos hr, if_pos hr, h1, except_ok_bind, h2, except_ok_bind]
      have hinv2 : ∀ b ∈ component,
          ((adjPush (adjPush acc r.between.1 (r.between.2, r)) r.between.2 (r.between.1, r)).any
            (fun p => p.1 = b)) = true := by
        intro b hb
        rw [any_key_adjPush, any_key_adjPush]
        exact hinv b hb
      exact ih _ hinv2
    · rw [if_neg hr, if_neg hr, except_pure_bind]
      exact ih _ hinv

theorem buildAdjPE_ok (component : List String) (mmRels : List Relationship) :
    buildAdjPE component mmRels = Except.ok (buildAdjP component mmRels) := by
  unfold buildAdjPE buildAdjP
  exact buildAdjPE_ok_aux component mmRels (adjInitP component)
    (fun b hb => adjInitP_any_key component b hb)

theorem estimateComponentRowsE_ok (component : List String) (mmRels : List Relationship)
    (es : List Entity) :
    estimateComponentRowsE component mmRels es
      = Except.ok (estimateComponentRows component mmRels es) := by
  unfold estimateComponentRowsE estimateComponentRows spanEdges
  rw [buildAdjPE_ok, except_ok_bind]
  cases component with
  | nil => rfl
  | cons c0 ct =>
    dsimp only
    cases spanAux (buildAdjP (c0 :: ct) mmRels) ((c0 :: ct).length + 1) [c0] [c0] [] with
    | nil => rfl
    | cons r0 rest => rfl

theorem componentContributionE_ok (es : List Entity) (mmRels : List Relationship)
    (component : List String) :
    componentContributionE es mmRels component
      = Except.ok (componentContribution es mmRels component) := by
  unfold componentContributionE componentContribution
  cases component with
  | nil => exact estimateComponentRowsE_ok [] mmRels es
  | cons x t =>
    cases t with
    | nil => rfl
    | cons y t2 => exact estimateComponentRowsE_ok (x :: y :: t2) mmRels es

theorem foldlM_add_ok {α : Type} (fE : α → Except String Nat) (f : α → Nat)
    (hf : ∀ c, fE c = Except.ok (f c)) :
    ∀ (l : List α) (acc : Nat),
      (l.foldlM (fun a c => do pure (a + (← fE c))) acc : Except String Nat)
        = Except.ok (l.foldl (fun a c => a + f c) acc) := by
  intro l
  induction l with
  | nil => intro acc; rfl
  | cons x t ih =>
    intro acc
    rw [List.foldlM_cons, List.foldl_cons, hf x, except_ok_bind, except_pure_bind]
    exact ih (acc + f x)

theorem foldlM_add_rows_ok {α : Type} (fE : α → Except String RowEstimate)
    (f : α → RowEstimate) (hf : ∀ c, fE c = Except.ok (f c)) :
    ∀ (l : List α) (acc : Nat),
      (l.foldlM (fun a c => do pure (a + (← fE c).rows)) acc : Except String Nat)
        = Except.ok (l.foldl (fun a c => a + (f c).rows) acc) := by
  intro l
  induction l with
  | nil => intro acc; rfl
  | cons x t ih =>
    intro acc
    rw [List.foldlM_cons, List.foldl_cons, hf x, except_ok_bind, except_pure_bind]
    exact ih (acc + (f x).rows)

theorem estimateRowsE_ok (es : List Entity) (rels : List Relationship)
    (grain : List String) :
    estimateRowsE es rels grain = Except.ok (estimateRows es rels grain) := by
  simp only [estimateRowsE, estimateRows]
  rw [foldlM_add_ok _ _ (componentContributionE_ok es (mmFilter rels grain)), except_ok_bind]
  rfl

theorem estimateTableRowsE_ok (m : Manifest) (t : BftTable) :
    estimateTableRowsE m t = Except.ok (estimateTableRows m t) := by
  simp only [estimateTableRowsE, estimateTableRows]
  rw [foldlM_add_rows_ok _ _ (estimateRowsE_ok m.entities m.relationships), except_ok_bind]
  rfl

theorem singleton_adj_aux (x : String) :
    ∀ (mm : List Relationship) (l : List String),
      (∀ r ∈ mm, r.between.1 = x ∧ r.between.2 = x) →
      (∀ y ∈ l, y = x) →
      ∃ l2, mm.foldl
          (fun m r => adjAddNbr (adjAddNbr m r.between.1 r.between.2) r.between.2 r.between.1)
          [(x, l)] = [(x, l2)] ∧ ∀ y ∈ l2, y = x := by
  intro mm
  induction mm with
  | nil => intro l hmm hl; exact ⟨l, rfl, hl⟩
  | cons r t ih =>
    intro l hmm hl
    obtain ⟨h1, h2⟩ := hmm r (List.mem_cons_self r t)
    rw [List.foldl_cons, h1, h2]
    have hstep : adjAddNbr (adjAddNbr [(x, l)] x x) x x = [(x, setAdd (setAdd l x) x)] := by
      simp [adjAddNbr]
    rw [hstep]
    refine ih (setAdd (setAdd l x) x) (fun r2 hr2 => hmm r2 (List.mem_cons_of_mem _ hr2)) ?_
    intro y hy
    rcases mem_setAdd.mp hy with hy2 | rfl
    · rcases mem_setAdd.mp hy2 with hy3 | rfl
      · exact hl y hy3
      · rfl
    · rfl

theorem mmFilter_singleton (rels : List Relationship) (x : String) :
    ∀ r ∈ mmFilter rels [x], r.between.1 = x ∧ r.between.2 = x := by
  intro r hr
  unfold mmFilter at hr
  have h := (List.mem_filter.mp hr).2
  simp only [decide_eq_true_eq] at h
  exact ⟨List.mem_singleton.mp h.2.1, List.mem_singleton.mp h.2.2⟩

theorem bfsAux_nil (adj : Adj) (f : Nat) (vis comp : List String) :
    bfsAux adj f [] vis comp = (vis, comp) := by
  cases f <;> rfl

theorem fcc_singleton (rels : List Relationship) (x : String) :
    findConnectedComponents [x] (mmFilter rels [x]) = [[x]] := by
  obtain ⟨l2, hadj, hl2⟩ :=
    singleton_adj_aux x (mmFilter rels [x]) [] (mmFilter_singleton rels x)
      (by intro y hy; cases hy)
  have hinit : adjInit [x] = [(x, [])] := rfl
  have hb : buildAdj [x] (mmFilter rels [x]) = [(x, l2)] := by
    unfold buildAdj
    rw [hinit]
    exact hadj
  have hget : adjGet [(x, l2)] x = l2 := by simp [adjGet]
  have hpush : l2.filter (fun nb => decide (nb ∉ ([] ++ [x] : List String))) = [] := by
    apply List.filter_eq_nil_iff.mpr
    intro y hy
    rw [hl2 y hy]
    simp
  have hstep : ∀ k : Nat, bfsAux [(x, l2)] (k + 1) [x] [] [] = ([x], [x]) := by
    intro k
    simp only [bfsAux]
    rw [if_neg (by simp : ¬ x ∈ ([] : List String))]
    rw [hget, hpush]
    simp only [List.nil_append, List.append_nil]
    exact bfsAux_nil _ k _ _
  have hfuel : ∃ k, bfsFuel [(x, l2)] = k + 1 :=
    ⟨(([(x, l2)].map (fun p => p.2.length + 1)).sum), by unfold bfsFuel; omega⟩
  obtain ⟨k, hk⟩ := hfuel
  simp only [findConnectedComponents]
  rw [hb, hk]
  simp [fccStep, hstep k]

/-- Claim C8: the estimator never raises.  The exception-instrumented
variants, in which every non-null assertion of the source is an explicit
error, always return ok with the pure result, for every input including
ones that fail validation; and an unresolvable reference contributes
nothing: a grain entity absent from the entity list yields a zero total
for its singleton grain. -/
theorem estimator_never_raises :
    (∀ (es : List Entity) (rels : List Relationship) (grain : List String),
      estimateRowsE es rels grain = Except.ok (estimateRows es rels grain))
    ∧ (∀ (m : Manifest) (t : BftTable),
      estimateTableRowsE m t = Except.ok (estimateTableRows m t))
    ∧ (∀ (es : List Entity) (rels : List Relationship) (x : String),
      entityGet es x = none → (estimateRows es rels [x]).total = 0) := by
  refine ⟨estimateRowsE_ok, estimateTableRowsE_ok, ?_⟩
  intro es rels x hx
  simp only [estimateRows]
  rw [fcc_singleton]
  simp [componentContribution, hx]

/-- Concrete instantiation of the C8 theorem: an unknown grain entity
contributes nothing. -/
theorem estimator_never_raises_witness :
    entityGet uniEntities "Dorm" = none
    ∧ (estimateRows uniEntities uniRels ["Dorm"]).total = 0 :=
  ⟨by decide, estimator_never_raises.2.2 uniEntities uniRels "Dorm" (by decide)⟩

/-! ## Claim C5 -/

theorem adjGet_cons (p : String × List String) (t : Adj) (x : String) :
    adjGet (p :: t) x = if p.1 = x then p.2 else adjGet t x := by
  unfold adjGet
  by_cases h : p.1 = x
  · rw [List.find?_cons_of_pos _ (by simp [h]), if_pos h]
  · rw [List.find?_cons_of_neg _ (by simp [h]), if_neg h]

theorem bfsAux_delta (adj : Adj) :
    ∀ (fuel : Nat) (q vis comp : List String),
      ∃ d : List String,
        bfsAux adj fuel q vis comp = (vis ++ d, comp ++ d)
        ∧ (∀ y ∈ d, y ∉ vis) ∧ d.Nodup := by
  intro fuel
  induction fuel with
  | zero =>
    intro q vis comp
    exact ⟨[], by simp [bfsAux], by simp, List.nodup_nil⟩
  | succ f ih =>
    intro q vis comp
    cases q with
    | nil => exact ⟨[], by simp [bfsAux], by simp, List.nodup_nil⟩
    | cons cur rest =>
      by_cases hcur : cur ∈ vis
      · obtain ⟨d, hd, hdv, hdn⟩ := ih rest vis comp
        refine ⟨d, ?_, hdv, hdn⟩
        simp only [bfsAux, if_pos hcur]
        exact hd
      · obtain ⟨d2, hd, hdv, hdn⟩ := ih
          (rest ++ (adjGet adj cur).filter (fun nb => decide (nb ∉ vis ++ [cur])))
          (vis ++ [cur]) (comp ++ [cur])
        refine ⟨cur :: d2, ?_, ?_, ?_⟩
        · simp only [bfsAux, if_neg hcur]
          rw [hd]
          simp
        · intro y hy
          rcases List.mem_cons.mp hy with rfl | hy2
          · exact hcur
          · intro hvy
            exact hdv y hy2 (List.mem_append_left _ hvy)
        · refine List.nodup_cons.mpr ⟨?_, hdn⟩
          intro hcd
          exact hdv cur hcd (List.mem_append_right _ (by simp))

theorem bfsAux_no_new_visit (adj : Adj) (x : String) (hadj : ∀ y, x ∉ adjGet adj y) :
    ∀ (fuel : Nat) (q vis comp : List String), x ∉ q →
      x ∈ (bfsAux adj fuel q vis comp).1 → x ∈ vis := by
  intro fuel
  induction fuel with
  | zero =>
    intro q vis comp hq h
    simpa [bfsAux] using h
  | succ f ih =>
    intro q vis comp hq h
    cases q with
    | nil => simpa [bfsAux] using h
    | cons cur rest =>
      have hxcur : x ≠ cur := fun he => hq (he ▸ List.mem_cons_self cur rest)
      by_cases hcur : cur ∈ vis
      · simp only [bfsAux, if_pos hcur] at h
        exact ih rest vis comp (fun hr => hq (List.mem_cons_of_mem _ hr)) h
      · simp only [bfsAux, if_neg hcur] at h
        have hq2 : x ∉ rest ++ (adjGet adj cur).filter (fun nb => decide (nb ∉ vis ++ [cur])) := by
          intro hmem
          rcases List.mem_append.mp hmem with h1 | h1
          · exact hq (List.mem_cons_of_mem _ h1)
          · exact hadj cur (List.mem_of_mem_filter h1)
        have hres := ih _ _ _ hq2 h
        rcases List.mem_append.mp hres with h1 | h1
        · exact h1
        · exact absurd (List.mem_singleton.mp h1) hxcur

theorem bfsAux_start (adj : Adj) (k : Nat) (n : String) (vis : List String)
    (h : n ∉ vis) (hadj : adjGet adj n = []) :
    bfsAux adj (k + 1) [n] vis [] = (vis ++ [n], [n]) := by
  simp only [bfsAux]
  rw [if_neg h, hadj]
  simp only [List.filter_nil, List.append_nil, List.nil_append]
  exact bfsAux_nil _ k _ _

theorem bfsAux_start_mem (adj : Adj) (k : Nat) (n : String) (vis : List String)
    (h : n ∉ vis) : n ∈ (bfsAux adj (k + 1) [n] vis []).1 := by
  simp only [bfsAux, if_neg h]
  obtain ⟨d, hd, _, _⟩ := bfsAux_delta adj k
    ([] ++ (adjGet adj n).filter (fun nb => decide (nb ∉ vis ++ [n]))) (vis ++ [n]) ([] ++ [n])
  rw [hd]
  simp

theorem fccStep_of_mem (adj : Adj) (F : Nat) (st : List String × List (List String))
    (n : String) (h : n ∈ st.1) : fccStep adj F st n = st := by
  unfold fccStep
  rw [if_pos h]

theorem fccStep_of_not_mem (adj : Adj) (F : Nat) (st : List String × List (List String))
    (n : String) (h : n ∉ st.1) :
    fccStep adj F st n
      = ((bfsAux adj F [n] st.1 []).1, st.2 ++ [(bfsAux adj F [n] st.1 []).2]) := by
  unfold fccStep
  rw [if_neg h]

theorem fcc_fold_mono (adj : Adj) (F : Nat) :
    ∀ (names : List String) (st : List String × List (List String)),
      (∀ x ∈ st.1, x ∈ (names.foldl (fccStep adj F) st).1)
      ∧ (∀ c ∈ st.2, c ∈ (names.foldl (fccStep adj F) st).2) := by
  intro names
  induction names with
  | nil => intro st; exact ⟨fun x h => h, fun c h => h⟩
  | cons m rest ih =>
    intro st
    rw [List.foldl_cons]
    have hstep : (∀ x ∈ st.1, x ∈ (fccStep adj F st m).1)
        ∧ (∀ c ∈ st.2, c ∈ (fccStep adj F st m).2) := by
      by_cases hm : m ∈ st.1
      · rw [fccStep_of_mem adj F st m hm]
        exact ⟨fun x h => h, fun c h => h⟩
      · rw [fccStep_of_not_mem adj F st m hm]
        obtain ⟨d, hd, _, _⟩ := bfsAux_delta adj F [m] st.1 []
        rw [hd]
        exact ⟨fun x h => List.mem_append_left _ h, fun c h => List.mem_append_left _ h⟩
    exact ⟨fun x h => (ih (fccStep adj F st m)).1 x (hstep.1 x h),
           fun c h => (ih (fccStep adj F st m)).2 c (hstep.2 c h)⟩

theorem fcc_fold_flatten (adj : Adj) (F : Nat) :
    ∀ (names : List String) (st : List String × List (List String)),
      st.1 = st.2.flatten → st.1.Nodup →
      ((names.foldl (fccStep adj F) st).1 = (names.foldl (fccStep adj F) st).2.flatten
        ∧ (names.foldl (fccStep adj F) st).1.Nodup) := by
  intro names
  induction names with
  | nil => intro st h1 h2; exact ⟨h1, h2⟩
  | cons m rest ih =>
    intro st h1 h2
    rw [List.foldl_cons]
    by_cases hm : m ∈ st.1
    · rw [fccStep_of_mem adj F st m hm]
      exact ih st h1 h2
    · rw [fccStep_of_not_mem adj F st m hm]
      obtain ⟨d, hd, hdv, hdn⟩ := bfsAux_delta adj F [m] st.1 []
      rw [hd]
      refine ih _ ?_ ?_
      · show st.1 ++ d = (st.2 ++ [d]).flatten
        rw [List.flatten_append, ← h1]
        simp
      · show (st.1 ++ d).Nodup
        exact List.nodup_append.mpr ⟨h2, hdn, fun y hy hyd => hdv y hyd hy⟩

theorem fcc_fold_mem (adj : Adj) (k : Nat) :
    ∀ (names : List String) (st : List String × List (List String)),
      ∀ n ∈ names, n ∈ (names.foldl (fccStep adj (k + 1)) st).1 := by
  intro names
  induction names with
  | nil => intro st n hn; cases hn
  | cons m rest ih =>
    intro st n hn
    rw [List.foldl_cons]
    rcases List.mem_cons.mp hn with rfl | hn2
    · have hmem : n ∈ (fccStep adj (k + 1) st n).1 := by
        by_cases hm : n ∈ st.1
        · rw [fccStep_of_mem adj _ st n hm]; exact hm
        · rw [fccStep_of_not_mem adj _ st n hm]
          exact bfsAux_start_mem adj k n st.1 hm
      exact (fcc_fold_mono adj (k + 1) rest (fccStep adj (k + 1) st n)).1 n hmem
    · exact ih (fccStep adj (k + 1) st m) n hn2

theorem countP_flatten_nodup :
    ∀ (L : List (List String)) (n : String), L.flatten.Nodup → n ∈ L.flatten →
      L.countP (fun c => decide (n ∈ c)) = 1 := by
  intro L
  induction L with
  | nil => intro n h hn; simp at hn
  | cons c T ih =>
    intro n h hn
    rw [List.flatten_cons] at h hn
    rw [List.countP_cons]
    obtain ⟨hc, hT, hdisj⟩ := List.nodup_append.mp h
    rcases List.mem_append.mp hn with hnc | hnT
    · have hzero : T.countP (fun c2 => decide (n ∈ c2)) = 0 := by
        apply List.countP_eq_zero.mpr
        intro c2 hc2 hp
        exact hdisj hnc (List.mem_flatten.mpr ⟨c2, hc2, of_decide_eq_true hp⟩)
      rw [hzero]
      simp [hnc]
    · have hnotc : n ∉ c := fun hx => hdisj hx hnT
      rw [ih n hT hnT]
      simp [hnotc]

theorem adjGet_adjAddNbr_other (a b x : String) (hax : a ≠ x) :
    ∀ (adj : Adj), adjGet (adjAddNbr adj a b) x = adjGet adj x := by
  intro adj
  induction adj with
  | nil => rfl
  | cons q t ih =>
    show adjGet ((if q.1 = a then (q.1, setAdd q.2 b) else q) :: adjAddNbr t a b) x
      = adjGet (q :: t) x
    by_cases hqa : q.1 = a
    · rw [if_pos hqa, adjGet_cons, adjGet_cons]
      have hqx : ¬ q.1 = x := fun he => hax (hqa ▸ he)
      rw [if_neg hqx, if_neg hqx]
      exact ih
    · rw [if_neg hqa, adjGet_cons, adjGet_cons]
      by_cases hqx : q.1 = x
      · rw [if_pos hqx, if_pos hqx]
      · rw [if_neg hqx, if_neg hqx]
        exact ih

theorem not_mem_adjGet_adjAddNbr (a b x : String) (hbx : b ≠ x) (y : String) :
    ∀ (adj : Adj), x ∉ adjGet adj y → x ∉ adjGet (adjAddNbr adj a b) y := by
  intro adj
  induction adj with
  | nil => exact fun h => h
  | cons q t ih =>
    intro h
    rw [adjGet_cons] at h
    show x ∉ adjGet ((if q.1 = a then (q.1, setAdd q.2 b) else q) :: adjAddNbr t a b) y
    by_cases hqa : q.1 = a
    · rw [if_pos hqa, adjGet_cons]
      by_cases hqy : q.1 = y
      · rw [if_pos hqy]
        rw [if_pos hqy] at h
        intro hx
        rcases mem_setAdd.mp hx with h2 | rfl
        · exact h h2
        · exact hbx rfl
      · rw [if_neg hqy]
        rw [if_neg hqy] at h
        exact ih h
    · rw [if_neg hqa, adjGet_cons]
      by_cases hqy : q.1 = y
      · rw [if_pos hqy]
        rw [if_pos hqy] at h
        exact h
      · rw [if_neg hqy]
        rw [if_neg hqy] at h
        exact ih h

theorem adjInit_values (names : List String) :
    ∀ (acc : Adj), (∀ p ∈ acc, p.2 = ([] : List String)) →
      ∀ p ∈ names.foldl
        (fun acc n => if acc.any (fun q => q.1 = n) then acc else acc ++ [(n, [])]) acc,
        p.2 = ([] : List String) := by
  induction names with
  | nil => intro acc h; exact h
  | cons n t ih =>
    intro acc h
    rw [List.foldl_cons]
    by_cases hc : (acc.any (fun q => q.1 = n)) = true
    · rw [if_pos hc]
      exact ih acc h
    · rw [if_neg hc]
      refine ih _ ?_
      intro p hp
      rcases List.mem_append.mp hp with h1 | h1
      · exact h p h1
      · rw [List.mem_singleton.mp h1]

theorem adjGet_eq_nil_of_values (adj : Adj) (h : ∀ p ∈ adj, p.2 = ([] : List String))
    (x : String) : adjGet adj x = [] := by
  unfold adjGet
  cases hf : adj.find? (fun p => p.1 = x) with
  | none => rfl
  | some p => exact h p (List.mem_of_find?_eq_some hf)

theorem buildAdj_isolated_aux (x : String) :
    ∀ (rl : List Relationship) (acc : Adj),
      (∀ r ∈ rl, x ≠ r.between.1 ∧ x ≠ r.between.2) →
      adjGet acc x = [] → (∀ y, x ∉ adjGet acc y) →
      adjGet (rl.foldl
        (fun m r => adjAddNbr (adjAddNbr m r.between.1 r.between.2) r.between.2 r.between.1)
        acc) x = []
      ∧ ∀ y, x ∉ adjGet (rl.foldl
        (fun m r => adjAddNbr (adjAddNbr m r.between.1 r.between.2) r.between.2 r.between.1)
        acc) y := by
  intro rl
  induction rl with
  | nil => intro acc hrl h1 h2; exact ⟨h1, h2⟩
  | cons r t ih =>
    intro acc hrl h1 h2
    obtain ⟨hx1, hx2⟩ := hrl r (List.mem_cons_self r t)
    rw [List.foldl_cons]
    refine ih _ (fun r2 hr2 => hrl r2 (List.mem_cons_of_mem _ hr2)) ?_ ?_
    · rw [adjGet_adjAddNbr_other _ _ _ (fun he => hx2 he.symm),
        adjGet_adjAddNbr_other _ _ _ (fun he => hx1 he.symm)]
      exact h1
    · intro y
      exact not_mem_adjGet_adjAddNbr _ _ _ (fun he => hx1 he.symm) y _
        (not_mem_adjGet_adjAddNbr _ _ _ (fun he => hx2 he.symm) y _ (h2 y))

theorem buildAdj_isolated (names : List String) (rels : List Relationship) (x : String)
    (hx : ∀ r ∈ rels, x ≠ r.between.1 ∧ x ≠ r.between.2) :
    adjGet (buildAdj names rels) x = [] ∧ ∀ y, x ∉ adjGet (buildAdj names rels) y := by
  unfold buildAdj
  have hvals : ∀ p ∈ adjInit names, p.2 = ([] : List String) :=
    adjInit_values names [] (fun p hp => absurd hp (List.not_mem_nil p))
  exact buildAdj_isolated_aux x rels (adjInit names) hx
    (adjGet_eq_nil_of_values _ hvals x)
    (fun y => by rw [adjGet_eq_nil_of_values _ hvals y]; exact List.not_mem_nil x)

theorem fcc_fold_isolated (adj : Adj) (k : Nat) (x : String)
    (hadjx : adjGet adj x = []) (hvals : ∀ y, x ∉ adjGet adj y) :
    ∀ (names : List String) (st : List String × List (List String)),
      (x ∈ st.1 → [x] ∈ st.2) →
      (x ∈ (names.foldl (fccStep adj (k + 1)) st).1
        → [x] ∈ (names.foldl (fccStep adj (k + 1)) st).2) := by
  intro names
  induction names with
  | nil => intro st hJ; exact hJ
  | cons m rest ih =>
    intro st hJ
    rw [List.foldl_cons]
    refine ih (fccStep adj (k + 1) st m) ?_
    by_cases hm : m ∈ st.1
    · rw [fccStep_of_mem adj _ st m hm]
      exact hJ
    · by_cases hmx : m = x
      · subst hmx
        rw [fccStep_of_not_mem adj _ st m hm, bfsAux_start adj k m st.1 hm hadjx]
        intro _
        exact List.mem_append_right _ (by simp)
      · rw [fccStep_of_not_mem adj _ st m hm]
        intro hx2
        have hxq : x ∉ [m] := by
          simp only [List.mem_singleton]
          exact fun he => hmx he.symm
        have := bfsAux_no_new_visit adj x hvals (k + 1) [m] st.1 [] hxq hx2
        exact List.mem_append_left _ (hJ this)

/-- Claim C5 counterexample: an edge from the single input node A to the
outside node B makes B appear in the output, so edges touching outside
nodes are not ignored and non-input nodes can appear. -/
theorem findConnectedComponents_outside_node :
    "B" ∈ (findConnectedComponents ["A"]
        [⟨"R", ("A", "B"), "many-to-many", 5, none⟩]).flatten
    ∧ "B" ∉ ["A"] := by decide

/-- Claim C5 (amended): an edge whose one endpoint is outside the node set
is recorded on the in-set endpoint, so outside nodes reachable from input
nodes do appear (nodes [A] with edge (A, B) give [[A, B]]); every input
node still appears in exactly one output component; and an input node
touched by no edge appears as a singleton component. -/
theorem findConnectedComponents_partition :
    findConnectedComponents ["A"] [⟨"R", ("A", "B"), "many-to-many", 5, none⟩]
      = [["A", "B"]]
    ∧ (∀ (names : List String) (rels : List Relationship) (n : String), n ∈ names →
        (findConnectedComponents names rels).countP (fun c => decide (n ∈ c)) = 1)
    ∧ (∀ (names : List String) (rels : List Relationship) (n : String), n ∈ names →
        (∀ r ∈ rels, n ≠ r.between.1 ∧ n ≠ r.between.2) →
        [n] ∈ findConnectedComponents names rels) := by
  refine ⟨by decide, ?_, ?_⟩
  · intro names rels n hn
    obtain ⟨k, hk⟩ : ∃ k, bfsFuel (buildAdj names rels) = k + 1 :=
      ⟨((buildAdj names rels).map (fun p => p.2.length + 1)).sum, by unfold bfsFuel; omega⟩
    simp only [findConnectedComponents]
    rw [hk]
    have hmem := fcc_fold_mem (buildAdj names rels) k names ([], []) n hn
    have hinv := fcc_fold_flatten (buildAdj names rels) (k + 1) names ([], []) rfl List.nodup_nil
    rw [hinv.1] at hmem
    exact countP_flatten_nodup _ n (hinv.1 ▸ hinv.2) hmem
  · intro names rels n hn hiso
    obtain ⟨hadjn, hvals⟩ := buildAdj_isolated names rels n hiso
    obtain ⟨k, hk⟩ : ∃ k, bfsFuel (buildAdj names rels) = k + 1 :=
      ⟨((buildAdj names rels).map (fun p => p.2.length + 1)).sum, by unfold bfsFuel; omega⟩
    simp only [findConnectedComponents]
    rw [hk]
    have hmem := fcc_fold_mem (buildAdj names rels) k names ([], []) n hn
    exact fcc_fold_isolated (buildAdj names rels) k n hadjn hvals names ([], [])
      (fun h => absurd h (List.not_mem_nil n)) hmem

/-- Concrete instantiation of the C5 amended theorem: Student lies in
exactly one component, and the untouched node Dorm is a singleton. -/
theorem findConnectedComponents_partition_witness :
    (findConnectedComponents ["Student", "Professor"] uniRels).countP
        (fun c => decide ("Student" ∈ c)) = 1
    ∧ ["Dorm"] ∈ findConnectedComponents ["Student", "Dorm"] uniRels :=
  ⟨findConnectedComponents_partition.2.1 ["Student", "Professor"] uniRels "Student" (by decide),
   findConnectedComponents_partition.2.2 ["Student", "Dorm"] uniRels "Dorm" (by decide)
     (by decide)⟩

/-! ## Claim C1 -/

theorem adjGetP_cons (p : String × List (String × Relationship)) (t : AdjP) (x : String) :
    adjGetP (p :: t) x = if p.1 = x then p.2 else adjGetP t x := by
  unfold adjGetP
  by_cases h : p.1 = x
  · rw [List.find?_cons_of_pos _ (by simp [h]), if_pos h]
  · rw [List.find?_cons_of_neg _ (by simp [h]), if_neg h]

theorem adjInitP_values (names : List String) :
    ∀ (acc : AdjP), (∀ p ∈ acc, p.2 = ([] : List (String × Relationship))) →
      ∀ p ∈ names.foldl
        (fun acc n => if acc.any (fun q => q.1 = n) then acc else acc ++ [(n, [])]) acc,
        p.2 = ([] : List (String × Relationship)) := by
  induction names with
  | nil => intro acc h; exact h
  | cons n t ih =>
    intro acc h
    rw [List.foldl_cons]
    by_cases hc : (acc.any (fun q => q.1 = n)) = true
    · rw [if_pos hc]
      exact ih acc h
    · rw [if_neg hc]
      refine ih _ ?_
      intro p hp
      rcases List.mem_append.mp hp with h1 | h1
      · exact h p h1
      · rw [List.mem_singleton.mp h1]

theorem adjGetP_adjInitP (names : List String) (x : String) :
    adjGetP (adjInitP names) x = [] := by
  unfold adjGetP
  cases hf : (adjInitP names).find? (fun p => p.1 = x) with
  | none => rfl
  | some p =>
    exact adjInitP_values names [] (fun p hp => absurd hp (List.not_mem_nil p)) p
      (List.mem_of_find?_eq_some hf)

theorem adjGetP_adjPush (a : String) (pr : String × Relationship) (x : String)
    (pr2 : String × Relationship) :
    ∀ (adj : AdjP), pr2 ∈ adjGetP (adjPush adj a pr) x →
      pr2 ∈ adjGetP adj x ∨ (pr2 = pr ∧ x = a) := by
  intro adj
  induction adj with
  | nil => exact fun h => Or.inl h
  | cons q t ih =>
    intro h
    replace h : pr2 ∈ adjGetP
        ((if q.1 = a then (q.1, q.2 ++ [pr]) else q) :: adjPush t a pr) x := h
    rw [adjGetP_cons] at h
    by_cases hqa : q.1 = a
    · rw [if_pos hqa] at h
      by_cases hqx : q.1 = x
      · rw [if_pos hqx] at h
        rcases List.mem_append.mp h with h1 | h1
        · refine Or.inl ?_
          rw [adjGetP_cons, if_pos hqx]
          exact h1
        · exact Or.inr ⟨List.mem_singleton.mp h1, by rw [← hqx, hqa]⟩
      · rw [if_neg hqx] at h
        rcases ih h with h1 | h1
        · refine Or.inl ?_
          rw [adjGetP_cons, if_neg hqx]
          exact h1
        · exact Or.inr h1
    · rw [if_neg hqa] at h
      by_cases hqx : q.1 = x
      · rw [if_pos hqx] at h
        refine Or.inl ?_
        rw [adjGetP_cons, if_pos hqx]
        exact h
      · rw [if_neg hqx] at h
        rcases ih h with h1 | h1
        · refine Or.inl ?_
          rw [adjGetP_cons, if_neg hqx]
          exact h1
        · exact Or.inr h1

theorem buildAdjP_endpoints_aux (component : List String) :
    ∀ (mm : List Relationship) (acc : AdjP),
      (∀ cur pr, pr ∈ adjGetP acc cur →
        (((pr.2.between.1 = cur ∧ pr.2.between.2 = pr.1)
          ∨ (pr.2.between.1 = pr.1 ∧ pr.2.between.2 = cur))
         ∧ pr.1 ∈ component ∧ cur ∈ component)) →
      ∀ cur pr, pr ∈ adjGetP (mm.foldl
        (fun m r =>
          if decide (r.between.1 ∈ component ∧ r.between.2 ∈ component) then
            adjPush (adjPush m r.between.1 (r.between.2, r)) r.between.2 (r.between.1, r)
          else m)
        acc) cur →
        (((pr.2.between.1 = cur ∧ pr.2.between.2 = pr.1)
          ∨ (pr.2.between.1 = pr.1 ∧ pr.2.between.2 = cur))
         ∧ pr.1 ∈ component ∧ cur ∈ component) := by
  intro mm
  induction mm with
  | nil => intro acc h; exact h
  | cons r t ih =>
    intro acc h
    rw [List.foldl_cons]
    by_cases hr : (decide (r.between.1 ∈ component ∧ r.between.2 ∈ component)) = true
    · obtain ⟨hr1, hr2⟩ := of_decide_eq_true hr
      rw [if_pos hr]
      refine ih _ ?_
      intro cur pr hmem
      rcases adjGetP_adjPush _ _ _ _ _ hmem with h1 | ⟨rfl, rfl⟩
      · rcases adjGetP_adjPush _ _ _ _ _ h1 with h2 | ⟨rfl, rfl⟩
        · exact h cur pr h2
        · exact ⟨Or.inl ⟨rfl, rfl⟩, hr2, hr1⟩
      · exact ⟨Or.inr ⟨rfl, rfl⟩, hr1, hr2⟩
    · rw [if_neg hr]
      exact ih _ h

theorem buildAdjP_endpoints (component : List String) (mm : List Relationship) :
    ∀ cur pr, pr ∈ adjGetP (buildAdjP component mm) cur →
      (((pr.2.between.1 = cur ∧ pr.2.between.2 = pr.1)
        ∨ (pr.2.between.1 = pr.1 ∧ pr.2.between.2 = cur))
       ∧ pr.1 ∈ component ∧ cur ∈ component) := by
  unfold buildAdjP
  exact buildAdjP_endpoints_aux component mm (adjInitP component)
    (fun cur pr hmem => absurd hmem (by rw [adjGetP_adjInitP]; exact List.not_mem_nil pr))

theorem goodSpanTo_append :
    ∀ (d1 : List Relationship) (vis v1 : List String) (d2 : List Relationship)
      (v2 : List String),
      goodSpanTo vis d1 v1 → goodSpanTo v1 d2 v2 → goodSpanTo vis (d1 ++ d2) v2 := by
  intro d1
  induction d1 with
  | nil =>
    intro vis v1 d2 v2 h1 h2
    have hv : v1 = vis := h1
    rw [List.nil_append, ← hv]
    exact h2
  | cons e t ih =>
    intro vis v1 d2 v2 h1 h2
    rcases h1 with ⟨ha, hb, hg⟩ | ⟨ha, hb, hg⟩
    · exact Or.inl ⟨ha, hb, ih _ _ _ _ hg h2⟩
    · exact Or.inr ⟨ha, hb, ih _ _ _ _ hg h2⟩

theorem spanNbrStep_fold (adj : AdjP)
    (hadj : ∀ cur pr, pr ∈ adjGetP adj cur →
      ((pr.2.between.1 = cur ∧ pr.2.between.2 = pr.1)
        ∨ (pr.2.between.1 = pr.1 ∧ pr.2.between.2 = cur)))
    (cur : String) :
    ∀ (nbrs : List (String × Relationship)), (∀ pr ∈ nbrs, pr ∈ adjGetP adj cur) →
      ∀ (vis ps : List String) (acc : List Relationship), cur ∈ vis →
        ∃ (p : List String) (es : List Relationship),
          nbrs.foldl spanNbrStep (vis, ps, acc) = (vis ++ p, ps ++ p, acc ++ es)
          ∧ goodSpanTo vis es (vis ++ p) := by
  intro nbrs
  induction nbrs with
  | nil =>
    intro hn vis ps acc hcur
    exact ⟨[], [], by simp, by simp [goodSpanTo]⟩
  | cons pr t ih =>
    intro hn vis ps acc hcur
    rw [List.foldl_cons]
    by_cases hpv : pr.1 ∈ vis
    · rw [show spanNbrStep (vis, ps, acc) pr = (vis, ps, acc) by
        unfold spanNbrStep; rw [if_pos hpv]]
      exact ih (fun pr2 h2 => hn pr2 (List.mem_cons_of_mem _ h2)) vis ps acc hcur
    · rw [show spanNbrStep (vis, ps, acc) pr = (vis ++ [pr.1], ps ++ [pr.1], acc ++ [pr.2]) by
        unfold spanNbrStep; rw [if_neg hpv]]
      obtain ⟨p2, es2, heq, hgood⟩ :=
        ih (fun pr2 h2 => hn pr2 (List.mem_cons_of_mem _ h2)) (vis ++ [pr.1]) (ps ++ [pr.1])
          (acc ++ [pr.2]) (List.mem_append_left _ hcur)
      refine ⟨pr.1 :: p2, pr.2 :: es2, ?_, ?_⟩
      · rw [heq]
        simp
      · rcases hadj cur pr (hn pr (List.mem_cons_self pr t)) with ⟨h1, h2⟩ | ⟨h1, h2⟩
        · refine Or.inl ⟨by rw [h1]; exact hcur, by rw [h2]; exact hpv, ?_⟩
          rw [h2]
          have : vis ++ pr.1 :: p2 = (vis ++ [pr.1]) ++ p2 := by simp
          rw [this]
          exact hgood
        · refine Or.inr ⟨by rw [h2]; exact hcur, by rw [h1]; exact hpv, ?_⟩
          rw [h1]
          have : vis ++ pr.1 :: p2 = (vis ++ [pr.1]) ++ p2 := by simp
          rw [this]
          exact hgood

theorem spanAux_good (adj : AdjP)
    (hadj : ∀ cur pr, pr ∈ adjGetP adj cur →
      ((pr.2.between.1 = cur ∧ pr.2.between.2 = pr.1)
        ∨ (pr.2.between.1 = pr.1 ∧ pr.2.between.2 = cur))) :
    ∀ (fuel : Nat) (q vis : List String) (acc : List Relationship),
      (∀ y ∈ q, y ∈ vis) →
      ∃ (d : List Relationship) (vis2 : List String),
        spanAux adj fuel q vis acc = acc ++ d ∧ goodSpanTo vis d vis2 := by
  intro fuel
  induction fuel with
  | zero =>
    intro q vis acc hq
    exact ⟨[], vis, by simp [spanAux], by simp [goodSpanTo]⟩
  | succ f ih =>
    intro q vis acc hq
    cases q with
    | nil => exact ⟨[], vis, by simp [spanAux], by simp [goodSpanTo]⟩
    | cons cur rest =>
      obtain ⟨p, es, heq, hgood⟩ :=
        spanNbrStep_fold adj hadj cur (adjGetP adj cur) (fun pr h => h) vis [] acc
          (hq cur (List.mem_cons_self cur rest))
      have hstep : spanAux adj (f + 1) (cur :: rest) vis acc
          = spanAux adj f (rest ++ ([] ++ p)) (vis ++ p) (acc ++ es) := by
        simp only [spanAux, spanStep, heq]
      rw [hstep]
      have hsub : ∀ y ∈ rest ++ ([] ++ p), y ∈ vis ++ p := by
        intro y hy
        rcases List.mem_append.mp hy with h1 | h1
        · exact List.mem_append_left _ (hq y (List.mem_cons_of_mem _ h1))
        · exact List.mem_append_right _ (by simpa using h1)
      obtain ⟨d2, vis3, heq2, hgood2⟩ := ih (rest ++ ([] ++ p)) (vis ++ p) (acc ++ es) hsub
      refine ⟨es ++ d2, vis3, ?_,
        goodSpanTo_append es vis (vis ++ p) d2 vis3 hgood hgood2⟩
      rw [heq2]
      simp

theorem mem_relEndpoints_cons (x : String) (e : Relationship) (t : List Relationship) :
    x ∈ relEndpoints (e :: t) ↔ x = e.between.1 ∨ x = e.between.2 ∨ x ∈ relEndpoints t := by
  simp [relEndpoints]

theorem relEndpoints_append :
    ∀ (a b : List Relationship), relEndpoints (a ++ b) = relEndpoints a ++ relEndpoints b := by
  intro a
  induction a with
  | nil => intro b; rfl
  | cons r t ih => intro b; simp [relEndpoints, ih]

theorem goodSpanTo_mem :
    ∀ (d : List Relationship) (vis v2 : List String), goodSpanTo vis d v2 →
      ∀ x, x ∈ v2 ↔ (x ∈ vis ∨ x ∈ relEndpoints d) := by
  intro d
  induction d with
  | nil =>
    intro vis v2 h x
    have hv : v2 = vis := h
    simp [hv, relEndpoints]
  | cons e t ih =>
    intro vis v2 h x
    rw [mem_relEndpoints_cons]
    rcases h with ⟨h1, h2, hg⟩ | ⟨h1, h2, hg⟩
    · rw [ih _ _ hg x]
      constructor
      · rintro (hv | hre)
        · rcases List.mem_append.mp hv with hv1 | hv1
          · exact Or.inl hv1
          · exact Or.inr (Or.inr (Or.inl (List.mem_singleton.mp hv1)))
        · exact Or.inr (Or.inr (Or.inr hre))
      · rintro (hv | rfl | rfl | hre)
        · exact Or.inl (List.mem_append_left _ hv)
        · exact Or.inl (List.mem_append_left _ h1)
        · exact Or.inl (List.mem_append_right _ (by simp))
        · exact Or.inr hre
    · rw [ih _ _ hg x]
      constructor
      · rintro (hv | hre)
        · rcases List.mem_append.mp hv with hv1 | hv1
          · exact Or.inl hv1
          · exact Or.inr (Or.inl (List.mem_singleton.mp hv1))
        · exact Or.inr (Or.inr (Or.inr hre))
      · rintro (hv | rfl | rfl | hre)
        · exact Or.inl (List.mem_append_left _ hv)
        · exact Or.inl (List.mem_append_right _ (by simp))
        · exact Or.inl (List.mem_append_left _ h1)
        · exact Or.inr hre

theorem goodSpanTo_split :
    ∀ (l1 : List Relationship) (vis : List String) (e : Relationship)
      (l2 : List Relationship) (v2 : List String),
      goodSpanTo vis (l1 ++ e :: l2) v2 →
      ∃ v1, goodSpanTo vis l1 v1 ∧ uniqueJoinPoint e v1 := by
  intro l1
  induction l1 with
  | nil =>
    intro vis e l2 v2 h
    rcases h with ⟨h1, h2, _⟩ | ⟨h1, h2, _⟩
    · exact ⟨vis, rfl, Or.inl ⟨h1, h2⟩⟩
    · exact ⟨vis, rfl, Or.inr ⟨h1, h2⟩⟩
  | cons e1 t ih =>
    intro vis e l2 v2 h
    rcases h with ⟨h1, h2, hg⟩ | ⟨h1, h2, hg⟩
    · obtain ⟨v1, hgood, hu⟩ := ih _ e l2 v2 hg
      exact ⟨v1, Or.inl ⟨h1, h2, hgood⟩, hu⟩
    · obtain ⟨v1, hgood, hu⟩ := ih _ e l2 v2 hg
      exact ⟨v1, Or.inr ⟨h1, h2, hgood⟩, hu⟩

theorem uniqueJoinPoint_congr (e : Relationship) (A B : List String)
    (h : ∀ x, x ∈ A ↔ x ∈ B) : uniqueJoinPoint e A → uniqueJoinPoint e B := by
  rintro (⟨h1, h2⟩ | ⟨h1, h2⟩)
  · exact Or.inl ⟨(h _).mp h1, fun hb => h2 ((h _).mpr hb)⟩
  · exact Or.inr ⟨(h _).mp h1, fun hb => h2 ((h _).mpr hb)⟩

theorem goodSpanTo_head_mem (c0 : String) (r0 : Relationship) (l1 : List Relationship)
    (v1 : List String) (h : goodSpanTo [c0] (r0 :: l1) v1) :
    c0 ∈ relEndpoints (r0 :: l1) := by
  rcases h with ⟨h1, _, _⟩ | ⟨h1, _, _⟩
  · rw [mem_relEndpoints_cons]
    exact Or.inl (List.mem_singleton.mp h1).symm
  · rw [mem_relEndpoints_cons]
    exact Or.inr (Or.inl (List.mem_singleton.mp h1).symm)

theorem fanOutStep_fst (es : List Entity) (rel : Relationship) (n : Nat)
    (priors : List Relationship) :
    (fanOutStep es (n, priors) rel).1 = (specStep es (n, relEndpoints priors) rel).1 := by
  unfold fanOutStep findSharedEntity specStep
  by_cases h1 : rel.between.1 ∈ relEndpoints priors
  · rw [if_pos h1, if_pos h1]
    cases entityGet es rel.between.1 <;> rfl
  · rw [if_neg h1, if_neg h1]
    by_cases h2 : rel.between.2 ∈ relEndpoints priors
    · rw [if_pos h2, if_pos h2]
      cases entityGet es rel.between.2 <;> rfl
    · rw [if_neg h2, if_neg h2]

theorem fanOutStep_snd (es : List Entity) (rel : Relationship) (n : Nat)
    (priors : List Relationship) :
    (fanOutStep es (n, priors) rel).2 = priors ++ [rel] := by
  unfold fanOutStep
  cases findSharedEntity es rel priors <;> rfl

theorem fanOut_spec_eq (es : List Entity) :
    ∀ (rest : List Relationship) (n : Nat) (priors : List Relationship)
      (tree : List String), tree = relEndpoints priors →
      (rest.foldl (fanOutStep es) (n, priors)).1
        = (rest.foldl (specStep es) (n, tree)).1 := by
  intro rest
  induction rest with
  | nil => intro n priors tree h; rfl
  | cons rel t ih =>
    intro n priors tree h
    subst h
    rw [List.foldl_cons, List.foldl_cons]
    have h1 : fanOutStep es (n, priors) rel
        = ((specStep es (n, relEndpoints priors) rel).1, priors ++ [rel]) :=
      Prod.ext (fanOutStep_fst es rel n priors) (fanOutStep_snd es rel n priors)
    have h3 : specStep es (n, relEndpoints priors) rel
        = ((specStep es (n, relEndpoints priors) rel).1,
           relEndpoints priors ++ [rel.between.1, rel.between.2]) :=
      Prod.ext rfl rfl
    rw [h1, h3]
    refine ih _ (priors ++ [rel]) _ ?_
    rw [relEndpoints_append]
    rfl

theorem spanNbrStep_fold_skip :
    ∀ (nbrs : List (String × Relationship)) (vis ps : List String)
      (acc : List Relationship), (∀ pr ∈ nbrs, pr.1 ∈ vis) →
      nbrs.foldl spanNbrStep (vis, ps, acc) = (vis, ps, acc) := by
  intro nbrs
  induction nbrs with
  | nil => intro vis ps acc h; rfl
  | cons pr t ih =>
    intro vis ps acc h
    rw [List.foldl_cons,
      show spanNbrStep (vis, ps, acc) pr = (vis, ps, acc) by
        unfold spanNbrStep; rw [if_pos (h pr (List.mem_cons_self pr t))]]
    exact ih vis ps acc (fun pr2 h2 => h pr2 (List.mem_cons_of_mem _ h2))

theorem spanAux_nil (adj : AdjP) (f : Nat) (vis : List String) (acc : List Relationship) :
    spanAux adj f [] vis acc = acc := by
  cases f <;> rfl

theorem spanEdges_singleton (x : String) (mm : List Relationship) :
    spanEdges [x] mm = [] := by
  have hnbrs : ∀ pr ∈ adjGetP (buildAdjP [x] mm) x, pr.1 ∈ [x] := by
    intro pr hpr
    exact (buildAdjP_endpoints [x] mm x pr hpr).2.1
  have sk : spanStep (adjGetP (buildAdjP [x] mm) x) [x] [] = ([x], [], []) := by
    unfold spanStep
    exact spanNbrStep_fold_skip _ _ _ _ hnbrs
  show spanAux (buildAdjP [x] mm) ([x].length + 1) [x] [x] [] = []
  simp only [spanAux, sk]

/-- Claim C1: whenever the grain is one connected component under its
many-to-many relationships and the spanning-tree search yields at least
one tree edge, estimateRows equals the spec-worded fan-out chain — first
edge's links as base, then per edge a multiplication by links over the
rows of the tree-side endpoint, rounded each step — and every subsequent
tree edge has exactly one endpoint among the earlier tree edges'
endpoints (the tree-side endpoint the rule divides by); the canonical
two-bridge university grain yields 180000 rows. -/
theorem estimateRows_fanout_chain :
    (∀ (es : List Entity) (rels : List Relationship) (grain c : List String)
        (r0 : Relationship) (rest : List Relationship),
      findConnectedComponents grain (mmFilter rels grain) = [c] →
      spanEdges c (mmFilter rels grain) = r0 :: rest →
      ((estimateRows es rels grain).rows = specFanOutChain es (r0 :: rest)
        ∧ ∀ (l1 : List Relationship) (e : Relationship) (l2 : List Relationship),
            rest = l1 ++ e :: l2 → uniqueJoinPoint e (relEndpoints (r0 :: l1))))
    ∧ (estimateRows uniEntities uniRels ["Student", "Class", "Professor"]).rows = 180000 := by
  refine ⟨?_, by decide⟩
  intro es rels grain c r0 rest hcomp hspan
  have hrows : (estimateRows es rels grain).rows
      = componentContribution es (mmFilter rels grain) c := by
    simp only [estimateRows]
    rw [hcomp]
    simp
  constructor
  · rw [hrows]
    cases c with
    | nil => simp [spanEdges] at hspan
    | cons c0 ct =>
      cases ct with
      | nil =>
        rw [spanEdges_singleton] at hspan
        cases hspan
      | cons c1 ct2 =>
        show estimateComponentRows (c0 :: c1 :: ct2) (mmFilter rels grain) es = _
        unfold estimateComponentRows
        rw [hspan]
        unfold specFanOutChain
        exact fanOut_spec_eq es rest r0.estimated_links [r0] _ rfl
  · intro l1 e l2 hsplit
    cases c with
    | nil => simp [spanEdges] at hspan
    | cons c0 ct =>
      have hadj := fun cur pr hpr =>
        ((buildAdjP_endpoints (c0 :: ct) (mmFilter rels grain)) cur pr hpr).1
      obtain ⟨d, vis2, heq, hgood⟩ :=
        spanAux_good (buildAdjP (c0 :: ct) (mmFilter rels grain)) hadj
          ((c0 :: ct).length + 1) [c0] [c0] [] (by intro y hy; simpa using hy)
      have hd : d = r0 :: rest := by
        have h2 : spanEdges (c0 :: ct) (mmFilter rels grain) = [] ++ d := heq
        rw [hspan] at h2
        simpa using h2.symm
      rw [hd, hsplit] at hgood
      obtain ⟨v1, hg1, hu⟩ := goodSpanTo_split (r0 :: l1) [c0] e l2 vis2 hgood
      have hc0 : c0 ∈ relEndpoints (r0 :: l1) := goodSpanTo_head_mem c0 r0 l1 v1 hg1
      have hmem := goodSpanTo_mem (r0 :: l1) [c0] v1 hg1
      refine uniqueJoinPoint_congr e v1 (relEndpoints (r0 :: l1)) ?_ hu
      intro x
      rw [hmem x]
      constructor
      · rintro (hx | hx)
        · rw [List.mem_singleton.mp hx]
          exact hc0
        · exact hx
      · exact fun hx => Or.inr hx

/-- Concrete instantiation of the C1 theorem on the university fixture:
its grain is one component, its spanning tree is [Enrollment, Assignment],
and Assignment joins the tree at exactly one endpoint. -/
theorem estimateRows_fanout_chain_witness :
    findConnectedComponents ["Student", "Class", "Professor"]
        (mmFilter uniRels ["Student", "Class", "Professor"])
      = [["Student", "Class", "Professor"]]
    ∧ spanEdges ["Student", "Class", "Professor"]
        (mmFilter uniRels ["Student", "Class", "Professor"])
      = [uniEnrollment, uniAssignment]
    ∧ (estimateRows uniEntities uniRels ["Student", "Class", "Professor"]).rows
      = specFanOutChain uniEntities [uniEnrollment, uniAssignment]
    ∧ uniqueJoinPoint uniAssignment (relEndpoints [uniEnrollment]) := by
  have h := estimateRows_fanout_chain.1 uniEntities uniRels
    ["Student", "Class", "Professor"] ["Student", "Class", "Professor"]
    uniEnrollment [uniAssignment] (by decide) (by decide)
  exact ⟨by decide, by decide, h.1, h.2 [] uniAssignment [] rfl⟩

/-! ## Claim C2 -/

/-- Claim C2 counterexample: on the chain-order fixture the source returns
107 rows (it folds the uncovered entity C into the first metric chain
before deduplication and subset removal), while the pipeline in the
spec's sentence order — dedup and drop subsets first, then fold uncovered
entities into a remaining chain — yields 70. -/
theorem estimateTableRows_chain_order_counterexample :
    specOrderedRows cexManifest cexTable = 70
    ∧ (estimateTableRows cexManifest cexTable).rows = 107 := by
  exact ⟨by decide, by decide⟩

theorem mem_foldl_setAdd_target :
    ∀ (path : List PropagationEdge) (grain acc : List String) (x : String),
      x ∈ path.foldl
        (fun c e => if e.target_entity ∈ grain then setAdd c e.target_entity else c) acc
      ↔ x ∈ acc ∨ ∃ e ∈ path, e.target_entity = x ∧ x ∈ grain := by
  intro path
  induction path with
  | nil => intro grain acc x; simp
  | cons e t ih =>
    intro grain acc x
    rw [List.foldl_cons]
    by_cases hg : e.target_entity ∈ grain
    · rw [if_pos hg, ih]
      constructor
      · rintro (h | ⟨e2, he2, rfl, hxg⟩)
        · rcases mem_setAdd.mp h with h2 | rfl
          · exact Or.inl h2
          · exact Or.inr ⟨e, List.mem_cons_self e t, rfl, hg⟩
        · exact Or.inr ⟨e2, List.mem_cons_of_mem _ he2, rfl, hxg⟩
      · rintro (h | ⟨e2, he2, rfl, hxg⟩)
        · exact Or.inl (mem_setAdd.mpr (Or.inl h))
        · rcases List.mem_cons.mp he2 with rfl | he3
          · exact Or.inl (mem_setAdd.mpr (Or.inr rfl))
          · exact Or.inr ⟨e2, he3, rfl, hxg⟩
    · rw [if_neg hg, ih]
      constructor
      · rintro (h | ⟨e2, he2, rfl, hxg⟩)
        · exact Or.inl h
        · exact Or.inr ⟨e2, List.mem_cons_of_mem _ he2, rfl, hxg⟩
      · rintro (h | ⟨e2, he2, rfl, hxg⟩)
        · exact Or.inl h
        · rcases List.mem_cons.mp he2 with rfl | he3
          · exact absurd hxg hg
          · exact Or.inr ⟨e2, he3, rfl, hxg⟩

/-- Claim C2 (amended): estimateTableRows computes one active-entity chain
per included metric whose home entity lies in the declared grain (home
plus in-grain hop targets), folds each untouched grain entity into the
first chain it many-to-many connects to before deduplication, then
deduplicates and removes strict-subset chains, and returns rows equal to
the sum of the per-chain base estimates — on the chain-order fixture this
yields 107. -/
theorem estimateTableRows_chain_pipeline :
    (∀ (m : Manifest) (t : BftTable),
      (estimateTableRows m t).rows
        = ((removeSubsetChains (addUncovered m t.entities (metricChains m t))).map
            (fun c => (estimateRows m.entities m.relationships c).rows)).sum)
    ∧ (∀ (m : Manifest) (grain : List String) (mn : String) (owner : Entity),
      metricOwnerGet m.entities mn = some owner → owner.name ∈ grain →
      ∃ ch, metricChain m grain mn = some ch
        ∧ ∀ x, x ∈ ch ↔ (x = owner.name
            ∨ ∃ pr, propGet m.propagations mn = some pr
                ∧ ∃ e ∈ pr.path, e.target_entity = x ∧ x ∈ grain))
    ∧ (estimateTableRows cexManifest cexTable).rows = 107 := by
  refine ⟨?_, ?_, by decide⟩
  · intro m t
    simp [estimateTableRows, effectiveChains, foldl_add_sum]
  · intro m grain mn owner howner hg
    unfold metricChain
    rw [howner]
    dsimp only
    rw [if_pos hg]
    cases hprop : propGet m.propagations mn with
    | none =>
      refine ⟨[owner.name], rfl, ?_⟩
      intro x
      simp only [List.mem_singleton]
      constructor
      · exact Or.inl
      · rintro (rfl | ⟨pr, hpr, _⟩)
        · rfl
        · cases hpr
    | some pr =>
      refine ⟨_, rfl, ?_⟩
      intro x
      rw [mem_foldl_setAdd_target pr.path grain [owner.name] x]
      constructor
      · rintro (h | ⟨e, he, rfl, hxg⟩)
        · exact Or.inl (List.mem_singleton.mp h)
        · exact Or.inr ⟨pr, rfl, e, he, rfl, hxg⟩
      · rintro (rfl | ⟨pr2, hpr2, e, he, rfl, hxg⟩)
        · exact Or.inl (by simp)
        · obtain rfl : pr = pr2 := Option.some.inj hpr2
          exact Or.inr ⟨e, he, rfl, hxg⟩

/-- Concrete instantiation of the C2 amended theorem: the active chain of
tuition on the full university grain is Student, Class, Professor. -/
theorem estimateTableRows_chain_pipeline_witness :
    metricOwnerGet uniManifest.entities "tuition_paid" = some uniStudent
    ∧ "Student" ∈ ["Student", "Class", "Professor"]
    ∧ ∃ ch, metricChain uniManifest ["Student", "Class", "Professor"] "tuition_paid" = some ch
        ∧ ∀ x, x ∈ ch ↔ (x = uniStudent.name
            ∨ ∃ pr, propGet uniManifest.propagations "tuition_paid" = some pr
                ∧ ∃ e ∈ pr.path, e.target_entity = x
                    ∧ x ∈ ["Student", "Class", "Professor"]) :=
  ⟨by decide, by decide,
   estimateTableRows_chain_pipeline.2.1 uniManifest ["Student", "Class", "Professor"]
     "tuition_paid" uniStudent (by decide) (by decide)⟩

/-! ## Claims C6 and C7: validator lemmas -/

theorem mem_ite_singleton {c : Prop} [Decidable c] {x err : ValidationError}
    (h : err ∈ (if c then [x] else [])) : c ∧ err = x := by
  by_cases hc : c
  · rw [if_pos hc] at h
    exact ⟨hc, List.mem_singleton.mp h⟩
  · rw [if_neg hc] at h
    cases h

theorem mem_ite_singleton_neg {c : Prop} [Decidable c] {x err : ValidationError}
    (h : err ∈ (if c then [] else [x])) : ¬c ∧ err = x := by
  by_cases hc : c
  · rw [if_pos hc] at h
    cases h
  · rw [if_neg hc] at h
    exact ⟨hc, List.mem_singleton.mp h⟩

theorem checkDuplicates_rules_aux (kind : String) :
    ∀ (names : List String) (st : List String × List ValidationError),
      (∀ e ∈ st.2, e.rule = "no-duplicates") →
      ∀ e ∈ (names.foldl
        (fun (st : List String × List ValidationError) n =>
          if n ∈ st.1 then
            (st.1, st.2 ++ [⟨"no-duplicates",
              "Duplicate " ++ kind ++ " name: \"" ++ n ++ "\"",
              some (kind ++ "s." ++ n)⟩])
          else (st.1 ++ [n], st.2)) st).2,
      e.rule = "no-duplicates" := by
  intro names
  induction names with
  | nil => intro st h; exact h
  | cons n t ih =>
    intro st h
    rw [List.foldl_cons]
    apply ih
    by_cases hn : n ∈ st.1
    · rw [if_pos hn]
      intro e he
      rcases List.mem_append.mp he with h1 | h1
      · exact h e h1
      · rw [List.mem_singleton.mp h1]
    · rw [if_neg hn]
      exact h

theorem checkDuplicates_rules (names : List String) (kind : String) :
    ∀ e ∈ checkDuplicates names kind, e.rule = "no-duplicates" := by
  unfold checkDuplicates
  exact checkDuplicates_rules_aux kind names ([], [])
    (fun e he => absurd he (List.not_mem_nil e))

theorem checkDuplicateNames_rules (m : Manifest) :
    ∀ e ∈ checkDuplicateNames m, e.rule = "no-duplicates" := by
  intro e he
  unfold checkDuplicateNames at he
  rcases List.mem_append.mp he with h | h
  rcases List.mem_append.mp h with h | h
  rcases List.mem_append.mp h with h | h
  rcases List.mem_append.mp h with h | h
  all_goals exact checkDuplicates_rules _ _ e h

theorem checkPositiveCardinalities_rules (m : Manifest) :
    ∀ e ∈ checkPositiveCardinalities m, e.rule = "positive-cardinality" := by
  intro e he
  unfold checkPositiveCardinalities at he
  rcases List.mem_append.mp he with h | h
  · obtain ⟨a, _, hfa⟩ := List.mem_filterMap.mp h
    by_cases hc : a.estimated_rows = 0
    · rw [if_pos hc] at hfa
      rw [← Option.some.inj hfa]
    · rw [if_neg hc] at hfa
      cases hfa
  · obtain ⟨a, _, hfa⟩ := List.mem_filterMap.mp h
    by_cases hc : a.estimated_links = 0
    · rw [if_pos hc] at hfa
      rw [← Option.some.inj hfa]
    · rw [if_neg hc] at hfa
      cases hfa

theorem checkRelationshipEntities_rules (m : Manifest) :
    ∀ e ∈ checkRelationshipEntities m, e.rule = "relationship-entity-exists" := by
  intro e he
  unfold checkRelationshipEntities at he
  obtain ⟨r, _, hmem⟩ := List.mem_flatMap.mp he
  obtain ⟨n, _, hfn⟩ := List.mem_filterMap.mp hmem
  by_cases hc : (entityGet m.entities n).isSome = true
  · rw [if_pos hc] at hfn
    cases hfn
  · rw [if_neg hc] at hfn
    rw [← Option.some.inj hfn]

theorem tableMetricErrors_rules_aux (m : Manifest) (t : BftTable) :
    ∀ (ms : List String) (st : List String × List ValidationError),
      (∀ e ∈ st.2, e.rule = "table-metric-unique" ∨ e.rule = "table-metric-exists") →
      ∀ e ∈ (ms.foldl
        (fun (st : List String × List ValidationError) mn =>
          let dup : List ValidationError :=
            if mn ∈ st.1 then
              [⟨"table-metric-unique",
                "Table \"" ++ t.name ++ "\" lists metric \"" ++ mn ++ "\" more than once",
                some ("bft_tables." ++ t.name ++ ".metrics")⟩]
            else []
          let missing : List ValidationError :=
            if (metricOwnerGet m.entities mn).isSome then []
            else [⟨"table-metric-exists",
              "Table \"" ++ t.name ++ "\" references nonexistent metric \"" ++ mn ++ "\"",
              some ("bft_tables." ++ t.name ++ ".metrics." ++ mn)⟩]
          (setAdd st.1 mn, st.2 ++ dup ++ missing)) st).2,
      e.rule = "table-metric-unique" ∨ e.rule = "table-metric-exists" := by
  intro ms
  induction ms with
  | nil => intro st h; exact h
  | cons mn rest ih =>
    intro st h
    rw [List.foldl_cons]
    apply ih
    dsimp only
    intro e he
    rcases List.mem_append.mp he with h1 | h1
    · rcases List.mem_append.mp h1 with h2 | h2
      · exact h e h2
      · obtain ⟨_, rfl⟩ := mem_ite_singleton h2
        exact Or.inl rfl
    · obtain ⟨_, rfl⟩ := mem_ite_singleton_neg h1
      exact Or.inr rfl

theorem checkTableMetrics_rules (m : Manifest) :
    ∀ e ∈ checkTableMetrics m,
      e.rule = "table-metric-unique" ∨ e.rule = "table-metric-exists" := by
  intro e he
  obtain ⟨t, _, hmem⟩ := List.mem_flatMap.mp he
  unfold tableMetricErrors at hmem
  exact tableMetricErrors_rules_aux m t t.metrics ([], [])
    (fun e2 he2 => absurd he2 (List.not_mem_nil e2)) e hmem

theorem edgeErrors_rule_nonadd (m : Manifest) (metric : String) (defn : Option MetricDef)
    (i : Nat) (cur : String) (vis : List String) (e : PropagationEdge)
    (err : ValidationError) (he : err ∈ edgeErrors m metric defn i cur vis e)
    (hr : err.rule = "non-additive-strategy") :
    e.strategy = "allocation" ∨ e.strategy = "elimination" := by
  unfold edgeErrors at he
  rcases List.mem_append.mp he with h | h5
  · rcases List.mem_append.mp h with h | h4
    · rcases List.mem_append.mp h with h | h3
      · rcases List.mem_append.mp h with h1 | h2
        · revert h1
          cases relGet m.relationships e.relationship with
          | none => intro h1; cases h1
          | some rel =>
            intro h1
            obtain ⟨_, rfl⟩ := mem_ite_singleton_neg h1
            simp at hr
        · obtain ⟨_, rfl⟩ := mem_ite_singleton_neg h2
          simp at hr
      · obtain ⟨_, rfl⟩ := mem_ite_singleton h3
        simp at hr
    · obtain ⟨_, rfl⟩ := mem_ite_singleton h4
      simp at hr
  · revert h5
    cases defn with
    | none => intro h5; cases h5
    | some d =>
      intro h5
      obtain ⟨⟨_, hstrat⟩, rfl⟩ := mem_ite_singleton h5
      exact hstrat

theorem edgeErrors_nonadd_mem (m : Manifest) (metric : String) (d : MetricDef)
    (i : Nat) (cur : String) (vis : List String) (e : PropagationEdge)
    (hnat : d.nature = "non-additive")
    (hstrat : e.strategy = "allocation" ∨ e.strategy = "elimination") :
    ∃ err ∈ edgeErrors m metric (some d) i cur vis e,
      err.rule = "non-additive-strategy" ∧ err.path = pathLoc metric i := by
  refine ⟨⟨"non-additive-strategy",
    "Non-additive metric \"" ++ metric ++ "\" cannot use \"" ++ e.strategy
      ++ "\" strategy — must use \"sum_over_sum\" or \"reserve\"",
    pathLoc metric i⟩, ?_, rfl, rfl⟩
  unfold edgeErrors
  apply List.mem_append_right
  show _ ∈ (if d.nature = "non-additive"
      ∧ (e.strategy = "allocation" ∨ e.strategy = "elimination") then _ else [])
  rw [if_pos ⟨hnat, hstrat⟩]
  exact List.mem_singleton_self _

theorem edgeErrors_cycle_mem (m : Manifest) (metric : String) (defn : Option MetricDef)
    (i : Nat) (cur : String) (vis : List String) (e : PropagationEdge)
    (hvis : e.target_entity ∈ vis) :
    ∃ err ∈ edgeErrors m metric defn i cur vis e,
      err.rule = "propagation-no-cycle" ∧ err.path = pathLoc metric i := by
  refine ⟨⟨"propagation-no-cycle",
    "Propagation for \"" ++ metric ++ "\" creates a cycle: \"" ++ e.target_entity
      ++ "\" already visited",
    pathLoc metric i⟩, ?_, rfl, rfl⟩
  unfold edgeErrors
  apply List.mem_append_left
  apply List.mem_append_right
  rw [if_pos hvis]
  exact List.mem_singleton_self _

theorem walkPath_nonadd_mem (m : Manifest) (metric : String) (d : MetricDef)
    (hnat : d.nature = "non-additive") :
    ∀ (path : List PropagationEdge) (j : Nat) (e : PropagationEdge) (i0 : Nat)
      (cur : String) (vis : List String),
      path.get? j = some e →
      (e.strategy = "allocation" ∨ e.strategy = "elimination") →
      e.relationship ∈ m.relationships.map (fun r => r.name) →
      (entityGet m.entities e.target_entity).isSome = true →
      ∃ err ∈ walkPath m metric (some d) path i0 cur vis,
        err.rule = "non-additive-strategy" ∧ err.path = pathLoc metric (i0 + j) := by
  intro path
  induction path with
  | nil =>
    intro j e i0 cur vis hget _ _ _
    rw [List.get?_nil] at hget
    cases hget
  | cons e1 rest ih =>
    intro j e i0 cur vis hget hstrat hrel hent
    cases j with
    | zero =>
      obtain rfl : e1 = e := by simpa using hget
      unfold walkPath
      rw [if_neg (fun hc => hc hrel), if_neg (by simp [hent])]
      obtain ⟨err, hmem, hrule, hpath⟩ :=
        edgeErrors_nonadd_mem m metric d i0 cur vis e1 hnat hstrat
      exact ⟨err, List.mem_append_left _ hmem, hrule, by simpa using hpath⟩
    | succ k =>
      have hget2 : rest.get? k = some e := by simpa using hget
      unfold walkPath
      by_cases hc1 : e1.relationship ∉ m.relationships.map (fun r => r.name)
      · rw [if_pos hc1]
        obtain ⟨err, hmem, hrule, hpath⟩ := ih k e (i0 + 1) cur vis hget2 hstrat hrel hent
        exact ⟨err, List.mem_cons_of_mem _ hmem, hrule,
          by rw [hpath, show i0 + 1 + k = i0 + (k + 1) from by omega]⟩
      · rw [if_neg hc1]
        by_cases hc2 : ((entityGet m.entities e1.target_entity).isSome = false)
        · rw [if_pos hc2]
          obtain ⟨err, hmem, hrule, hpath⟩ := ih k e (i0 + 1) cur vis hget2 hstrat hrel hent
          exact ⟨err, List.mem_cons_of_mem _ hmem, hrule,
            by rw [hpath, show i0 + 1 + k = i0 + (k + 1) from by omega]⟩
        · rw [if_neg hc2]
          obtain ⟨err, hmem, hrule, hpath⟩ :=
            ih k e (i0 + 1) e1.target_entity (setAdd vis e1.target_entity) hget2 hstrat hrel hent
          exact ⟨err, List.mem_append_right _ hmem, hrule,
            by rw [hpath, show i0 + 1 + k = i0 + (k + 1) from by omega]⟩

theorem walkPath_cycle_mem (m : Manifest) (metric : String) (defn : Option MetricDef) :
    ∀ (path : List PropagationEdge) (j : Nat) (e : PropagationEdge) (i0 : Nat)
      (cur : String) (vis : List String),
      path.get? j = some e →
      e.relationship ∈ m.relationships.map (fun r => r.name) →
      (entityGet m.entities e.target_entity).isSome = true →
      e.target_entity ∈ walkVisited m (path.take j) vis →
      ∃ err ∈ walkPath m metric defn path i0 cur vis,
        err.rule = "propagation-no-cycle" ∧ err.path = pathLoc metric (i0 + j) := by
  intro path
  induction path with
  | nil =>
    intro j e i0 cur vis hget _ _ _
    rw [List.get?_nil] at hget
    cases hget
  | cons e1 rest ih =>
    intro j e i0 cur vis hget hrel hent hvis
    cases j with
    | zero =>
      obtain rfl : e1 = e := by simpa using hget
      have hvis2 : e1.target_entity ∈ vis := by simpa [walkVisited] using hvis
      unfold walkPath
      rw [if_neg (fun hc => hc hrel), if_neg (by simp [hent])]
      obtain ⟨err, hmem, hrule, hpath⟩ :=
        edgeErrors_cycle_mem m metric defn i0 cur vis e1 hvis2
      exact ⟨err, List.mem_append_left _ hmem, hrule, by simpa using hpath⟩
    | succ k =>
      have hget2 : rest.get? k = some e := by simpa using hget
      rw [List.take_succ_cons] at hvis
      unfold walkPath
      unfold walkVisited at hvis
      by_cases hc1 : e1.relationship ∉ m.relationships.map (fun r => r.name)
      · rw [if_pos hc1]
        rw [if_pos hc1] at hvis
        obtain ⟨err, hmem, hrule, hpath⟩ := ih k e (i0 + 1) cur vis hget2 hrel hent hvis
        exact ⟨err, List.mem_cons_of_mem _ hmem, hrule,
          by rw [hpath, show i0 + 1 + k = i0 + (k + 1) from by omega]⟩
      · rw [if_neg hc1]
        rw [if_neg hc1] at hvis
        by_cases hc2 : ((entityGet m.entities e1.target_entity).isSome = false)
        · rw [if_pos hc2]
          rw [if_pos hc2] at hvis
          obtain ⟨err, hmem, hrule, hpath⟩ := ih k e (i0 + 1) cur vis hget2 hrel hent hvis
          exact ⟨err, List.mem_cons_of_mem _ hmem, hrule,
            by rw [hpath, show i0 + 1 + k = i0 + (k + 1) from by omega]⟩
        · rw [if_neg hc2]
          rw [if_neg hc2] at hvis
          obtain ⟨err, hmem, hrule, hpath⟩ :=
            ih k e (i0 + 1) e1.target_entity (setAdd vis e1.target_entity) hget2 hrel hent hvis
          exact ⟨err, List.mem_append_right _ hmem, hrule,
            by rw [hpath, show i0 + 1 + k = i0 + (k + 1) from by omega]⟩

theorem walkPath_rule_nonadd (m : Manifest) (metric : String) (defn : Option MetricDef) :
    ∀ (path : List PropagationEdge) (i0 : Nat) (cur : String) (vis : List String)
      (err : ValidationError),
      err ∈ walkPath m metric defn path i0 cur vis →
      err.rule = "non-additive-strategy" →
      ∃ e ∈ path, e.strategy = "allocation" ∨ e.strategy = "elimination" := by
  intro path
  induction path with
  | nil =>
    intro i0 cur vis err h
    simp [walkPath] at h
  | cons e1 rest ih =>
    intro i0 cur vis err h hr
    unfold walkPath at h
    by_cases hc1 : e1.relationship ∉ m.relationships.map (fun r => r.name)
    · rw [if_pos hc1] at h
      rcases List.mem_cons.mp h with rfl | h2
      · simp at hr
      · obtain ⟨e, he, hs⟩ := ih _ _ _ _ h2 hr
        exact ⟨e, List.mem_cons_of_mem _ he, hs⟩
    · rw [if_neg hc1] at h
      by_cases hc2 : ((entityGet m.entities e1.target_entity).isSome = false)
      · rw [if_pos hc2] at h
        rcases List.mem_cons.mp h with rfl | h2
        · simp at hr
        · obtain ⟨e, he, hs⟩ := ih _ _ _ _ h2 hr
          exact ⟨e, List.mem_cons_of_mem _ he, hs⟩
      · rw [if_neg hc2] at h
        rcases List.mem_append.mp h with h2 | h2
        · exact ⟨e1, List.mem_cons_self e1 rest,
            edgeErrors_rule_nonadd m metric defn i0 cur vis e1 err h2 hr⟩
        · obtain ⟨e, he, hs⟩ := ih _ _ _ _ h2 hr
          exact ⟨e, List.mem_cons_of_mem _ he, hs⟩

theorem propErrors_rule_nonadd (m : Manifest) (p : MetricPropagation)
    (err : ValidationError) (h : err ∈ propErrors m p)
    (hr : err.rule = "non-additive-strategy") :
    ∃ e ∈ p.path, e.strategy = "allocation" ∨ e.strategy = "elimination" := by
  unfold propErrors at h
  revert h
  cases metricOwnerGet m.entities p.metric with
  | none =>
    intro h
    dsimp only at h
    rw [List.mem_singleton.mp h] at hr
    simp at hr
  | some owner =>
    intro h
    dsimp only at h
    by_cases hp : p.path = []
    · rw [if_pos hp] at h
      rw [List.mem_singleton.mp h] at hr
      simp at hr
    · rw [if_neg hp] at h
      exact walkPath_rule_nonadd m p.metric _ p.path 0 owner.name [owner.name] err h hr

theorem mem_validate_of_checkPropagations (m : Manifest) (err : ValidationError)
    (h : err ∈ checkPropagations m) : err ∈ validate m := by
  unfold validate
  exact List.mem_append_left _ (List.mem_append_right _ h)

theorem validate_rule_nonadd (m : Manifest) (err : ValidationError)
    (h : err ∈ validate m) (hr : err.rule = "non-additive-strategy") :
    ∃ p ∈ m.propagations, ∃ e ∈ p.path,
      e.strategy = "allocation" ∨ e.strategy = "elimination" := by
  unfold validate at h
  rcases List.mem_append.mp h with h | h5
  · rcases List.mem_append.mp h with h | h4
    · rcases List.mem_append.mp h with h | h3
      · rcases List.mem_append.mp h with h1 | h2
        · rw [checkDuplicateNames_rules m err h1] at hr
          exact absurd hr (by decide)
        · rw [checkPositiveCardinalities_rules m err h2] at hr
          exact absurd hr (by decide)
      · rw [checkRelationshipEntities_rules m err h3] at hr
        exact absurd hr (by decide)
    · obtain ⟨p, hp, hperr⟩ := List.mem_flatMap.mp h4
      obtain ⟨e, he, hs⟩ := propErrors_rule_nonadd m p err hperr hr
      exact ⟨p, hp, e, he, hs⟩
  · rcases checkTableMetrics_rules m err h5 with h6 | h6 <;>
      (rw [h6] at hr; exact absurd hr (by decide))

/-- Claim C6 counterexample: the metric mna is non-additive and its only
hop uses the allocation strategy, but the hop's relationship "R" does not
exist, so validate returns no non-additive-strategy error — the hop is
skipped before the nature check runs. -/
theorem validate_nonadditive_skip :
    findMetricDef natViolManifest.entities "mna"
      = some ⟨"mna", "rating", "non-additive"⟩
    ∧ natViolManifest.propagations
      = [⟨"mna", [⟨"R", "B", "allocation", some "w"⟩]⟩]
    ∧ ∀ err ∈ validate natViolManifest, err.rule ≠ "non-additive-strategy" :=
  ⟨by decide, by decide, by decide⟩

/-- Claim C6 (amended): for a declared propagation of a non-additive
metric, every hop that uses allocation or elimination AND passes the
relationship-exists and entity-exists checks yields a
non-additive-strategy error located at that hop; if no hop anywhere in
the manifest uses allocation or elimination, no such error is emitted;
and the natOkManifest scenario (non-additive metric, sum_over_sum hop)
validates without one. -/
theorem validate_nonadditive_strategy :
    (∀ (m : Manifest) (p : MetricPropagation) (j : Nat) (e : PropagationEdge)
        (o : Entity) (d : MetricDef),
      p ∈ m.propagations →
      metricOwnerGet m.entities p.metric = some o →
      findMetricDef m.entities p.metric = some d →
      d.nature = "non-additive" →
      p.path.get? j = some e →
      (e.strategy = "allocation" ∨ e.strategy = "elimination") →
      e.relationship ∈ m.relationships.map (fun r => r.name) →
      (entityGet m.entities e.target_entity).isSome = true →
      ∃ err ∈ validate m,
        err.rule = "non-additive-strategy" ∧ err.path = pathLoc p.metric j)
    ∧ (∀ (m : Manifest) (err : ValidationError),
      (∀ p ∈ m.propagations, ∀ e ∈ p.path,
        e.strategy ≠ "allocation" ∧ e.strategy ≠ "elimination") →
      err ∈ validate m → err.rule ≠ "non-additive-strategy")
    ∧ (∀ err ∈ validate natOkManifest, err.rule ≠ "non-additive-strategy") := by
  refine ⟨?_, ?_, by decide⟩
  · intro m p j e o d hp howner hdef hnat hget hstrat hrel hent
    have hne : p.path ≠ [] := by
      intro h0
      rw [h0, List.get?_nil] at hget
      cases hget
    obtain ⟨err, hmem, hrule, hpath⟩ :=
      walkPath_nonadd_mem m p.metric d hnat p.path j e 0 o.name [o.name]
        hget hstrat hrel hent
    refine ⟨err, ?_, hrule, by simpa using hpath⟩
    apply mem_validate_of_checkPropagations
    apply List.mem_flatMap.mpr
    refine ⟨p, hp, ?_⟩
    unfold propErrors
    rw [howner]
    dsimp only
    rw [if_neg hne, hdef]
    exact hmem
  · intro m err hno hmem hrule
    obtain ⟨p, hp, e, he, hs⟩ := validate_rule_nonadd m err hmem hrule
    rcases hs with hs | hs
    · exact (hno p hp e he).1 hs
    · exact (hno p hp e he).2 hs

/-- Witness for C6: in natAllocManifest the allocation hop resolves both
references, so validate does report a non-additive-strategy error at
hop 0 of metric mna. -/
theorem validate_nonadditive_strategy_witness :
    (⟨"mna", [⟨"RABn", "B", "allocation", some "w"⟩]⟩ : MetricPropagation)
      ∈ natAllocManifest.propagations
    ∧ ∃ err ∈ validate natAllocManifest,
        err.rule = "non-additive-strategy" ∧ err.path = pathLoc "mna" 0 :=
  ⟨by decide,
   validate_nonadditive_strategy.1 natAllocManifest
     ⟨"mna", [⟨"RABn", "B", "allocation", some "w"⟩]⟩ 0
     ⟨"RABn", "B", "allocation", some "w"⟩ naEntityA
     ⟨"mna", "rating", "non-additive"⟩
     (by decide) (by decide) (by decide) (by decide) (by decide)
     (by decide) (by decide) (by decide)⟩

/-- Claim C7 counterexample: the path of metric mna revisits the home
entity A at its only hop, but that hop's relationship "R" does not
exist, so the cycle check is skipped and validate returns no
propagation-no-cycle error. -/
theorem validate_cycle_skip :
    metricOwnerGet cycViolManifest.entities "mna" = some naEntityA
    ∧ cycViolManifest.propagations
      = [⟨"mna", [⟨"R", "A", "sum_over_sum", some "w"⟩]⟩]
    ∧ ∀ err ∈ validate cycViolManifest, err.rule ≠ "propagation-no-cycle" :=
  ⟨by decide, by decide, by decide⟩

/-- Claim C7 (amended): a hop that passes both reference checks and whose
target entity has already been visited — the home entity, or the target
of an earlier hop that itself passed both reference checks — yields a
propagation-no-cycle error located at that hop. -/
theorem validate_propagation_cycle
    (m : Manifest) (p : MetricPropagation) (j : Nat) (e : PropagationEdge)
    (o : Entity)
    (hp : p ∈ m.propagations)
    (howner : metricOwnerGet m.entities p.metric = some o)
    (hget : p.path.get? j = some e)
    (hrel : e.relationship ∈ m.relationships.map (fun r => r.name))
    (hent : (entityGet m.entities e.target_entity).isSome = true)
    (hvis : e.target_entity ∈ walkVisited m (p.path.take j) [o.name]) :
    ∃ err ∈ validate m,
      err.rule = "propagation-no-cycle" ∧ err.path = pathLoc p.metric j := by
  have hne : p.path ≠ [] := by
    intro h0
    rw [h0, List.get?_nil] at hget
    cases hget
  obtain ⟨err, hmem, hrule, hpath⟩ :=
    walkPath_cycle_mem m p.metric (findMetricDef m.entities p.metric)
      p.path j e 0 o.name [o.name] hget hrel hent hvis
  refine ⟨err, ?_, hrule, by simpa using hpath⟩
  apply mem_validate_of_checkPropagations
  apply List.mem_flatMap.mpr
  refine ⟨p, hp, ?_⟩
  unfold propErrors
  rw [howner]
  dsimp only
  rw [if_neg hne]
  exact hmem

/-- Witness for C7: in cycOkManifest both hops resolve and the second
hop returns to the home entity A, so validate reports a
propagation-no-cycle error at hop 1 of metric mna. -/
theorem validate_propagation_cycle_witness :
    (⟨"mna", [⟨"RABn", "B", "sum_over_sum", some "w"⟩,
              ⟨"RABn", "A", "sum_over_sum", some "w"⟩]⟩ : MetricPropagation)
      ∈ cycOkManifest.propagations
    ∧ ∃ err ∈ validate cycOkManifest,
        err.rule = "propagation-no-cycle" ∧ err.path = pathLoc "mna" 1 :=
  ⟨by decide,
   validate_propagation_cycle cycOkManifest
     ⟨"mna", [⟨"RABn", "B", "sum_over_sum", some "w"⟩,
              ⟨"RABn", "A", "sum_over_sum", some "w"⟩]⟩ 1
     ⟨"RABn", "A", "sum_over_sum", some "w"⟩ naEntityA
     (by decide) (by decide) (by decide) (by decide) (by decide) (by decide)⟩

end BFT
